import Mathlib

/-!
Verification of the English-to-Marathi name transliteration engines of the
hospital-admission system, and of the admission form's name-field merge.

The development shallowly embeds:
* `src/lib/name-converter.ts` (namespace `Part012`): `nameMapping`,
  `charMapping`, `basicTransliterate`, `convertToMarathi`,
  `convertFullNameToMarathi`;
* `src/components/ui/improved-marathi-input.tsx` (namespace `Improved`):
  `marathiMap`, `charMap`, `transliterateToMarathi`;
* `src/components/ui/working-marathi-input.tsx` (namespace `Working`):
  `marathiTranslation` and its `convertToMarathi`;
* the auto-conversion `useEffect` of `src/components/admission-form.tsx`
  (namespace `AdmissionForm`).

JavaScript string primitives are modelled on the character ranges the data
actually uses: `toLowerCase` maps the 26 ASCII capitals to their lowercase
forms and leaves every other character unchanged, `trim` strips the ASCII
whitespace characters, and object-literal indexing is association-list lookup
(the dictionaries have no duplicate keys with conflicting values, which the
`decide`-checked facts below confirm where it matters).
-/

namespace HospitalNames

/-! Character classes used by the code: the regex class `[a-z]` of
`basicTransliterate`, the capitals handled by `toLowerCase`, and the ASCII
whitespace handled by `trim`. -/

def isLatinLower (c : Char) : Bool := 97 ≤ c.toNat && c.toNat ≤ 122

def isLatinUpper (c : Char) : Bool := 65 ≤ c.toNat && c.toNat ≤ 90

def isWsChar (c : Char) : Bool :=
  c.toNat = 32 || c.toNat = 9 || c.toNat = 10 || c.toNat = 13

/-- Model of `String.prototype.toLowerCase` on one character, restricted to
the ASCII letters (the only case-carrying characters the dictionaries and the
admission data involve); all other characters are returned unchanged. -/
def lowerChar (c : Char) : Char :=
  match c with
  | 'A' => 'a' | 'B' => 'b' | 'C' => 'c' | 'D' => 'd' | 'E' => 'e' | 'F' => 'f'
  | 'G' => 'g' | 'H' => 'h' | 'I' => 'i' | 'J' => 'j' | 'K' => 'k' | 'L' => 'l'
  | 'M' => 'm' | 'N' => 'n' | 'O' => 'o' | 'P' => 'p' | 'Q' => 'q' | 'R' => 'r'
  | 'S' => 's' | 'T' => 't' | 'U' => 'u' | 'V' => 'v' | 'W' => 'w' | 'X' => 'x'
  | 'Y' => 'y' | 'Z' => 'z'
  | c => c

def lowerStr (s : String) : String := String.mk (s.data.map lowerChar)

/-- Model of `String.prototype.trim` on the character list. -/
def trimL (l : List Char) : List Char :=
  ((l.dropWhile isWsChar).reverse.dropWhile isWsChar).reverse

def trimStr (s : String) : String := String.mk (trimL s.data)

/-- The normalization `s.toLowerCase().trim()` that every engine applies. -/
def normStr (s : String) : String := trimStr (lowerStr s)

/-! Association-list lookup modelling JavaScript object-literal indexing, and
a substring test modelling `String.prototype.includes`. -/

def lookupL : List (List Char × List Char) → List Char → Option (List Char)
  | [], _ => none
  | (k, v) :: rest, key => if k = key then some v else lookupL rest key

/-- Prefix test: true when the first list is an initial segment of the
second. -/
def hasPre : List Char → List Char → Bool
  | [], _ => true
  | _ :: _, [] => false
  | c :: n, d :: h => c = d && hasPre n h

/-- Model of `hay.includes(needle)`: the first list occurs contiguously in
the second. -/
def subOf (needle : List Char) (hay : List Char) : Bool :=
  hasPre needle hay ||
    match hay with
    | [] => false
    | _ :: t => subOf needle t

/-! Generic greedy scanner skeleton.  Each engine's scanning loop is a step
function that consumes at least one character and emits a piece; the loop is
run with the input length as fuel, which is always enough. -/

def scanF (step : Char → List Char → List Char × List Char) :
    Nat → List Char → List Char
  | _, [] => []
  | 0, _ :: _ => []
  | fuel + 1, c :: rest => (step c rest).1 ++ scanF step fuel (step c rest).2

def scanL (step : Char → List Char → List Char × List Char)
    (l : List Char) : List Char :=
  scanF step l.length l

/-- Bounded dictionary probe: the JS loops guard each substring lookup with
`i <= text.length - n` before testing `text.substring(i, i + n)`. -/
def probeN (d : List (List Char × List Char)) (n : Nat) (l : List Char) :
    Option (List Char) :=
  if n ≤ l.length then lookupL d (l.take n) else none

/-! Basic lemmas about the character classes and the JS string models. -/

theorem char_toNat_inj {a b : Char} (h : a.toNat = b.toNat) : a = b := by
  rw [← Char.ofNat_toNat a, h, Char.ofNat_toNat]

theorem mem_of_toNat_mem {c : Char} :
    ∀ {L : List Char}, c.toNat ∈ L.map Char.toNat → c ∈ L := by
  intro L
  induction L with
  | nil => simp
  | cons d t ih =>
    intro h
    rcases List.mem_cons.1 h with h | h
    · exact List.mem_cons.2 (Or.inl (char_toNat_inj h))
    · exact List.mem_cons.2 (Or.inr (ih h))

/-- The 26 lowercase Latin letters. -/
def lowerLetters : List Char :=
  ['a', 'b', 'c', 'd', 'e', 'f', 'g', 'h', 'i', 'j', 'k', 'l', 'm',
   'n', 'o', 'p', 'q', 'r', 's', 't', 'u', 'v', 'w', 'x', 'y', 'z']

theorem mem_lowerLetters_of_isLatinLower {c : Char}
    (h : isLatinLower c = true) : c ∈ lowerLetters := by
  have hb : 97 ≤ c.toNat ∧ c.toNat ≤ 122 := by
    simpa [isLatinLower] using h
  apply mem_of_toNat_mem
  have hmap : lowerLetters.map Char.toNat =
      [97, 98, 99, 100, 101, 102, 103, 104, 105, 106, 107, 108, 109,
       110, 111, 112, 113, 114, 115, 116, 117, 118, 119, 120, 121, 122] := by
    decide
  rw [hmap]
  simp only [List.mem_cons, List.not_mem_nil, or_false]
  omega

theorem lowerChar_of_not_upper {c : Char} (h : isLatinUpper c = false) :
    lowerChar c = c := by
  unfold lowerChar
  split
  all_goals first
    | rfl
    | (exfalso; revert h; decide)

theorem isLatinUpper_lowerChar (c : Char) :
    isLatinUpper (lowerChar c) = false := by
  unfold lowerChar
  split
  all_goals first
    | decide
    | (rename_i hne; by_cases hu : isLatinUpper c = true
       · exfalso
         have hmem : c ∈
             ['A', 'B', 'C', 'D', 'E', 'F', 'G', 'H', 'I', 'J', 'K', 'L', 'M',
              'N', 'O', 'P', 'Q', 'R', 'S', 'T', 'U', 'V', 'W', 'X', 'Y',
              'Z'] := by
           apply mem_of_toNat_mem
           have hb : 65 ≤ c.toNat ∧ c.toNat ≤ 90 := by
             simpa [isLatinUpper] using hu
           have hmap :
               (['A', 'B', 'C', 'D', 'E', 'F', 'G', 'H', 'I', 'J', 'K', 'L',
                 'M', 'N', 'O', 'P', 'Q', 'R', 'S', 'T', 'U', 'V', 'W', 'X',
                 'Y', 'Z'] : List Char).map Char.toNat =
               [65, 66, 67, 68, 69, 70, 71, 72, 73, 74, 75, 76, 77, 78, 79,
                80, 81, 82, 83, 84, 85, 86, 87, 88, 89, 90] := by decide
           rw [hmap]
           simp only [List.mem_cons, List.not_mem_nil, or_false]
           omega
         fin_cases hmem <;> simp_all
       · simp at hu
         exact hu)

theorem isWsChar_lowerChar (c : Char) : isWsChar (lowerChar c) = isWsChar c := by
  by_cases h : isLatinUpper c = true
  · have hmem : c ∈
        ['A', 'B', 'C', 'D', 'E', 'F', 'G', 'H', 'I', 'J', 'K', 'L', 'M',
         'N', 'O', 'P', 'Q', 'R', 'S', 'T', 'U', 'V', 'W', 'X', 'Y', 'Z'] := by
      apply mem_of_toNat_mem
      have hb : 65 ≤ c.toNat ∧ c.toNat ≤ 90 := by
        simpa [isLatinUpper] using h
      have hmap :
          (['A', 'B', 'C', 'D', 'E', 'F', 'G', 'H', 'I', 'J', 'K', 'L',
            'M', 'N', 'O', 'P', 'Q', 'R', 'S', 'T', 'U', 'V', 'W', 'X',
            'Y', 'Z'] : List Char).map Char.toNat =
          [65, 66, 67, 68, 69, 70, 71, 72, 73, 74, 75, 76, 77, 78, 79,
           80, 81, 82, 83, 84, 85, 86, 87, 88, 89, 90] := by decide
      rw [hmap]
      simp only [List.mem_cons, List.not_mem_nil, or_false]
      omega
    fin_cases hmem <;> decide
  · rw [lowerChar_of_not_upper (by simpa using h)]

theorem isLatinLower_lowerChar (c : Char) :
    isLatinLower (lowerChar c) = (isLatinLower c || isLatinUpper c) := by
  by_cases h : isLatinUpper c = true
  · have hmem : c ∈
        ['A', 'B', 'C', 'D', 'E', 'F', 'G', 'H', 'I', 'J', 'K', 'L', 'M',
         'N', 'O', 'P', 'Q', 'R', 'S', 'T', 'U', 'V', 'W', 'X', 'Y', 'Z'] := by
      apply mem_of_toNat_mem
      have hb : 65 ≤ c.toNat ∧ c.toNat ≤ 90 := by
        simpa [isLatinUpper] using h
      have hmap :
          (['A', 'B', 'C', 'D', 'E', 'F', 'G', 'H', 'I', 'J', 'K', 'L',
            'M', 'N', 'O', 'P', 'Q', 'R', 'S', 'T', 'U', 'V', 'W', 'X',
            'Y', 'Z'] : List Char).map Char.toNat =
          [65, 66, 67, 68, 69, 70, 71, 72, 73, 74, 75, 76, 77, 78, 79,
           80, 81, 82, 83, 84, 85, 86, 87, 88, 89, 90] := by decide
      rw [hmap]
      simp only [List.mem_cons, List.not_mem_nil, or_false]
      omega
    fin_cases hmem <;> decide
  · have h2 : isLatinUpper c = false := by simpa using h
    rw [lowerChar_of_not_upper h2, h2]
    simp

theorem lowerChar_idem (c : Char) : lowerChar (lowerChar c) = lowerChar c :=
  lowerChar_of_not_upper (isLatinUpper_lowerChar c)

/-! Lemmas about `trimL`. -/

theorem head?_dropWhile_ws {l : List Char} {c : Char}
    (h : (l.dropWhile isWsChar).head? = some c) : isWsChar c = false := by
  induction l with
  | nil => simp [List.dropWhile] at h
  | cons d t ih =>
    rw [List.dropWhile_cons] at h
    by_cases hd : isWsChar d = true
    · rw [if_pos hd] at h
      exact ih h
    · rw [if_neg hd] at h
      simp at h
      subst h
      simpa using hd

theorem trimL_getLast? {l : List Char} {c : Char}
    (h : (trimL l).getLast? = some c) : isWsChar c = false := by
  unfold trimL at h
  rw [List.getLast?_reverse] at h
  exact head?_dropWhile_ws h

theorem trimL_head? {l : List Char} {c : Char}
    (h : (trimL l).head? = some c) : isWsChar c = false := by
  unfold trimL at h
  rw [List.head?_reverse] at h
  rcases hsfx : ((l.dropWhile isWsChar).reverse.dropWhile isWsChar) with _ | ⟨d, t⟩
  · rw [hsfx] at h
    simp at h
  · have hsuffix : (l.dropWhile isWsChar).reverse.dropWhile isWsChar <:+
        (l.dropWhile isWsChar).reverse := List.dropWhile_suffix isWsChar
    rw [hsfx] at h hsuffix
    have hne : (d :: t : List Char) ≠ [] := by simp
    have : ((d :: t : List Char)).getLast? =
        ((l.dropWhile isWsChar).reverse).getLast? := by
      rcases hsuffix with ⟨pre, hpre⟩
      rw [← hpre, List.getLast?_append_of_ne_nil _ hne]
    rw [this, List.getLast?_reverse] at h
    exact head?_dropWhile_ws h

theorem dropWhile_eq_self_of_head {l : List Char}
    (h : ∀ c, l.head? = some c → isWsChar c = false) :
    l.dropWhile isWsChar = l := by
  cases l with
  | nil => rfl
  | cons c t =>
    rw [List.dropWhile_cons, if_neg]
    simp [h c rfl]

theorem trimL_eq_self {l : List Char}
    (h1 : ∀ c, l.head? = some c → isWsChar c = false)
    (h2 : ∀ c, l.getLast? = some c → isWsChar c = false) :
    trimL l = l := by
  unfold trimL
  rw [dropWhile_eq_self_of_head h1, dropWhile_eq_self_of_head, List.reverse_reverse]
  intro c hc
  rw [List.head?_reverse] at hc
  exact h2 c hc

theorem trimL_eq_nil_iff {l : List Char} :
    trimL l = [] ↔ ∀ c ∈ l, isWsChar c = true := by
  unfold trimL
  constructor
  · intro h
    have hrev : (l.dropWhile isWsChar).reverse.dropWhile isWsChar = [] := by
      have h2 := congrArg List.reverse h
      simpa using h2
    have hall2 : ∀ x ∈ l.dropWhile isWsChar, isWsChar x = true := by
      intro x hx
      exact List.dropWhile_eq_nil_iff.1 hrev x (by simpa using hx)
    have hnil : l.dropWhile isWsChar = [] := by
      rcases hd : l.dropWhile isWsChar with _ | ⟨x, t⟩
      · rfl
      · exfalso
        have hws : isWsChar x = false :=
          head?_dropWhile_ws (l := l) (by rw [hd]; rfl)
        have hws2 := hall2 x (by rw [hd]; exact List.mem_cons_self x t)
        rw [hws2] at hws
        exact Bool.noConfusion hws
    exact List.dropWhile_eq_nil_iff.1 hnil
  · intro h
    have h1 : l.dropWhile isWsChar = [] :=
      List.dropWhile_eq_nil_iff.2 fun x hx => h x hx
    rw [h1]
    rfl

/-! Lemmas about `lookupL`, `subOf` and the scanner skeleton. -/

theorem lookupL_mem {d : List (List Char × List Char)} {k v : List Char}
    (h : lookupL d k = some v) : (k, v) ∈ d := by
  induction d with
  | nil => simp [lookupL] at h
  | cons p rest ih =>
    rcases p with ⟨k0, v0⟩
    rw [lookupL] at h
    by_cases he : k0 = k
    · rw [if_pos he] at h
      injection h with h
      subst he h
      exact List.mem_cons_self _ _
    · rw [if_neg he] at h
      exact List.mem_cons.2 (Or.inr (ih h))

theorem lookupL_eq_none_iff {d : List (List Char × List Char)}
    {key : List Char} :
    lookupL d key = none ↔ ∀ p ∈ d, p.1 ≠ key := by
  induction d with
  | nil => simp [lookupL]
  | cons p rest ih =>
    rcases p with ⟨k0, v0⟩
    rw [lookupL]
    by_cases he : k0 = key
    · subst he
      simp
    · rw [if_neg he]
      simp only [List.mem_cons, ne_eq]
      constructor
      · intro h q hq
        rcases hq with hq | hq
        · subst hq
          exact he
        · exact ih.1 h q hq
      · intro h
        exact ih.2 fun q hq => h q (Or.inr hq)

theorem lookupL_append_some {d1 d2 : List (List Char × List Char)}
    {key v : List Char} (h : lookupL d1 key = some v) :
    lookupL (d1 ++ d2) key = some v := by
  induction d1 with
  | nil => simp [lookupL] at h
  | cons p rest ih =>
    rcases p with ⟨k0, v0⟩
    rw [lookupL] at h
    rw [List.cons_append, lookupL]
    by_cases he : k0 = key
    · rw [if_pos he] at h ⊢
      exact h
    · rw [if_neg he] at h ⊢
      exact ih h

theorem lookupL_append_none {d1 d2 : List (List Char × List Char)}
    {key : List Char} (h : lookupL d1 key = none) :
    lookupL (d1 ++ d2) key = lookupL d2 key := by
  induction d1 with
  | nil => rfl
  | cons p rest ih =>
    rcases p with ⟨k0, v0⟩
    rw [lookupL] at h
    rw [List.cons_append, lookupL]
    by_cases he : k0 = key
    · rw [if_pos he] at h
      exact absurd h (by simp)
    · rw [if_neg he] at h ⊢
      exact ih h

theorem lookupL_eq_none_of_disjoint {d : List (List Char × List Char)}
    {key : List Char}
    (hd : ∀ p ∈ d, p.1 ≠ [] ∧ ∀ c ∈ p.1, isLatinLower c = true)
    (hk : ∀ c ∈ key, isLatinLower c = false) :
    lookupL d key = none := by
  rw [lookupL_eq_none_iff]
  intro p hp he
  rcases hd p hp with ⟨hne, hlat⟩
  rcases hq : p.1 with _ | ⟨c, t⟩
  · exact hne hq
  · have hc1 : isLatinLower c = true := hlat c (by rw [hq]; exact List.mem_cons_self _ _)
    have hc2 : isLatinLower c = false := by
      apply hk
      rw [← he, hq]
      exact List.mem_cons_self _ _
    rw [hc1] at hc2
    exact Bool.noConfusion hc2

theorem hasPre_subset {a : List Char} :
    ∀ {b : List Char}, hasPre a b = true → ∀ c ∈ a, c ∈ b := by
  induction a with
  | nil => intro b _ c hc; simp at hc
  | cons x t ih =>
    intro b h c hc
    cases b with
    | nil => simp [hasPre] at h
    | cons y u =>
      rw [hasPre, Bool.and_eq_true] at h
      rcases h with ⟨hxy, hrest⟩
      have hxy2 : x = y := by simpa using hxy
      rcases List.mem_cons.1 hc with hc | hc
      · subst hc hxy2
        exact List.mem_cons_self _ _
      · exact List.mem_cons.2 (Or.inr (ih hrest c hc))

theorem subOf_subset {a : List Char} :
    ∀ {b : List Char}, subOf a b = true → ∀ c ∈ a, c ∈ b := by
  intro b
  induction b with
  | nil =>
    intro h c hc
    rw [subOf, Bool.or_eq_true] at h
    rcases h with h | h
    · exact hasPre_subset h c hc
    · exact Bool.noConfusion h
  | cons y u ih =>
    intro h c hc
    rw [subOf, Bool.or_eq_true] at h
    rcases h with h | h
    · exact hasPre_subset h c hc
    · exact List.mem_cons.2 (Or.inr (ih h c hc))

theorem probeN_some {d : List (List Char × List Char)} {n : Nat}
    {l v : List Char} (h : probeN d n l = some v) :
    n ≤ l.length ∧ lookupL d (l.take n) = some v := by
  unfold probeN at h
  by_cases hn : n ≤ l.length
  · rw [if_pos hn] at h
    exact ⟨hn, h⟩
  · rw [if_neg hn] at h
    exact absurd h (by simp)

theorem scanF_congr {step : Char → List Char → List Char × List Char}
    (hstep : ∀ c rest, ((step c rest).2).length ≤ rest.length) :
    ∀ f1 f2 l, l.length ≤ f1 → l.length ≤ f2 →
      scanF step f1 l = scanF step f2 l := by
  intro f1
  induction f1 with
  | zero =>
    intro f2 l h1 _
    have : l = [] := List.length_eq_zero.1 (Nat.le_zero.1 h1)
    subst this
    cases f2 <;> rfl
  | succ f ih =>
    intro f2 l h1 h2
    cases l with
    | nil => cases f2 <;> rfl
    | cons c rest =>
      cases f2 with
      | zero => simp at h2
      | succ g =>
        rw [scanF, scanF]
        congr 1
        apply ih
        · exact Nat.le_trans (hstep c rest) (by simpa using h1)
        · exact Nat.le_trans (hstep c rest) (by simpa using h2)

theorem scanL_cons {step : Char → List Char → List Char × List Char}
    (hstep : ∀ c rest, ((step c rest).2).length ≤ rest.length)
    (c : Char) (rest : List Char) :
    scanL step (c :: rest) =
      (step c rest).1 ++ scanL step (step c rest).2 := by
  unfold scanL
  rw [List.length_cons, scanF]
  congr 1
  exact scanF_congr hstep _ _ _ (hstep c rest) Nat.le.refl

theorem scan_ind {step : Char → List Char → List Char × List Char}
    (hstep : ∀ c rest, ((step c rest).2).length ≤ rest.length)
    (M : List Char → List Char → Prop)
    (base : M [] [])
    (ih : ∀ c rest, M (step c rest).2 (scanL step (step c rest).2) →
      M (c :: rest) ((step c rest).1 ++ scanL step (step c rest).2)) :
    ∀ l, M l (scanL step l) := by
  have key : ∀ n l, l.length ≤ n → M l (scanL step l) := by
    intro n
    induction n with
    | zero =>
      intro l h
      have : l = [] := List.length_eq_zero.1 (Nat.le_zero.1 h)
      subst this
      exact base
    | succ n ihn =>
      intro l h
      cases l with
      | nil => exact base
      | cons c rest =>
        rw [scanL_cons hstep]
        apply ih
        apply ihn
        exact Nat.le_trans (hstep c rest) (by simpa using h)
  exact fun l => key l.length l Nat.le.refl

/-! Embedding of `src/lib/name-converter.ts`. -/

namespace Part012

/-- The whole-word dictionary `nameMapping` of `src/lib/name-converter.ts`
(common first names followed by common surnames), in source order. -/
def nameMapping : List (String × String) := [
  ("ram", "राम"),
  ("sita", "सीता"),
  ("krishna", "कृष्ण"),
  ("radha", "राधा"),
  ("shiva", "शिव"),
  ("parvati", "पार्वती"),
  ("ganesh", "गणेश"),
  ("lakshmi", "लक्ष्मी"),
  ("vishnu", "विष्णू"),
  ("brahma", "ब्रह्मा"),
  ("saraswati", "सरस्वती"),
  ("hanuman", "हनुमान"),
  ("arjun", "अर्जुन"),
  ("bhim", "भीम"),
  ("yudhishthir", "युधिष्ठिर"),
  ("nakul", "नकुल"),
  ("sahadev", "सहदेव"),
  ("draupadi", "द्रौपदी"),
  ("kunti", "कुंती"),
  ("gandhari", "गांधारी"),
  ("karna", "कर्ण"),
  ("duryodhan", "दुर्योधन"),
  ("bhishma", "भीष्म"),
  ("drona", "द्रोण"),
  ("ashwatthama", "अश्वत्थामा"),
  ("abhimanyu", "अभिमन्यू"),
  ("subhadra", "सुभद्रा"),
  ("rukmini", "रुक्मिणी"),
  ("meera", "मीरा"),
  ("tukaram", "तुकाराम"),
  ("namdev", "नामदेव"),
  ("eknath", "एकनाथ"),
  ("dnyaneshwar", "ज्ञानेश्वर"),
  ("tukdoji", "तुकडोजी"),
  ("ramdas", "रामदास"),
  ("shivaji", "शिवाजी"),
  ("sambhaji", "संभाजी"),
  ("rajaram", "राजाराम"),
  ("tarabai", "ताराबाई"),
  ("ahilyabai", "अहिल्याबाई"),
  ("bajirao", "बाजीराव"),
  ("mastani", "मस्तानी"),
  ("prithviraj", "पृथ्वीराज"),
  ("rani", "राणी"),
  ("maharaj", "महाराज"),
  ("maharani", "महाराणी"),
  ("sharma", "शर्मा"),
  ("verma", "वर्मा"),
  ("gupta", "गुप्ता"),
  ("agarwal", "अग्रवाल"),
  ("singh", "सिंह"),
  ("kumar", "कुमार"),
  ("patel", "पटेल"),
  ("shah", "शाह"),
  ("jain", "जैन"),
  ("agrawal", "अग्रवाल"),
  ("bansal", "बंसल"),
  ("goel", "गोयल"),
  ("mittal", "मित्तल"),
  ("joshi", "जोशी"),
  ("kulkarni", "कुलकर्णी"),
  ("deshpande", "देशपांडे"),
  ("patil", "पाटील"),
  ("jadhav", "जाधव"),
  ("pawar", "पवार"),
  ("more", "मोरे"),
  ("shinde", "शिंदे"),
  ("gaikwad", "गायकवाड"),
  ("bhosale", "भोसले"),
  ("salunkhe", "सालुंखे"),
  ("kadam", "कदम"),
  ("mane", "माने"),
  ("sawant", "सावंत"),
  ("raut", "राऊत"),
  ("kale", "काळे"),
  ("mali", "माळी"),
  ("kamble", "कांबळे"),
  ("thorat", "थोरात"),
  ("chavan", "चव्हाण"),
  ("yadav", "यादव"),
  ("mahajan", "महाजन"),
  ("desai", "देसाई"),
  ("mehta", "मेहता"),
  ("trivedi", "त्रिवेदी"),
  ("pandey", "पांडे"),
  ("mishra", "मिश्रा"),
  ("tiwari", "तिवारी"),
  ("dubey", "दुबे"),
  ("chaturvedi", "चतुर्वेदी"),
  ("shukla", "शुक्ला"),
  ("srivastava", "श्रीवास्तव"),
  ("rajput", "राजपूत"),
  ("thakur", "ठाकूर"),
  ("chouhan", "चौहान"),
  ("rathore", "राठोड"),
  ("solanki", "सोलंकी"),
  ("parmar", "परमार"),
  ("prajapati", "प्रजापती")]

/-- The syllable dictionary `charMapping` of `src/lib/name-converter.ts`. -/
def charMapping : List (String × String) := [
  ("a", "अ"),
  ("aa", "आ"),
  ("i", "इ"),
  ("ii", "ई"),
  ("u", "उ"),
  ("uu", "ऊ"),
  ("e", "ए"),
  ("ai", "ऐ"),
  ("o", "ओ"),
  ("au", "औ"),
  ("ka", "क"),
  ("kha", "ख"),
  ("ga", "ग"),
  ("gha", "घ"),
  ("nga", "ङ"),
  ("cha", "च"),
  ("chha", "छ"),
  ("ja", "ज"),
  ("jha", "झ"),
  ("nya", "ञ"),
  ("ta", "ट"),
  ("tha", "ठ"),
  ("da", "ड"),
  ("dha", "ढ"),
  ("na", "ण"),
  ("taa", "त"),
  ("thaa", "थ"),
  ("daa", "द"),
  ("dhaa", "ध"),
  ("naa", "न"),
  ("pa", "प"),
  ("pha", "फ"),
  ("ba", "ब"),
  ("bha", "भ"),
  ("ma", "म"),
  ("ya", "य"),
  ("ra", "र"),
  ("la", "ल"),
  ("va", "व"),
  ("sha", "श"),
  ("shha", "ष"),
  ("sa", "स"),
  ("ha", "ह"),
  ("ksha", "क्ष"),
  ("tra", "त्र"),
  ("gya", "ज्ञ")]

def nameMappingL : List (List Char × List Char) :=
  nameMapping.map fun p => (p.1.data, p.2.data)

def charMappingL : List (List Char × List Char) :=
  charMapping.map fun p => (p.1.data, p.2.data)

end Part012

/-! Embedding of `src/components/ui/improved-marathi-input.tsx`. -/

namespace Improved

/-- The syllable-class entries of `marathiMap` (sections: vowels, basic
consonants, single consonants), in source order. -/
def syllableEntries : List (String × String) := [
  ("a", "अ"),
  ("aa", "आ"),
  ("i", "इ"),
  ("ii", "ई"),
  ("u", "उ"),
  ("uu", "ऊ"),
  ("e", "ए"),
  ("ai", "ऐ"),
  ("o", "ओ"),
  ("au", "औ"),
  ("an", "अं"),
  ("ah", "अः"),
  ("ka", "क"),
  ("kha", "ख"),
  ("ga", "ग"),
  ("gha", "घ"),
  ("nga", "ङ"),
  ("cha", "च"),
  ("chha", "छ"),
  ("ja", "ज"),
  ("jha", "झ"),
  ("nya", "ञ"),
  ("ta", "ट"),
  ("tha", "ठ"),
  ("da", "ड"),
  ("dha", "ढ"),
  ("na", "ण"),
  ("taa", "त"),
  ("thaa", "थ"),
  ("daa", "द"),
  ("dhaa", "ध"),
  ("naa", "न"),
  ("pa", "प"),
  ("pha", "फ"),
  ("ba", "ब"),
  ("bha", "भ"),
  ("ma", "म"),
  ("ya", "य"),
  ("ra", "र"),
  ("la", "ल"),
  ("va", "व"),
  ("wa", "व"),
  ("sha", "श"),
  ("shha", "ष"),
  ("sa", "स"),
  ("ha", "ह"),
  ("ksha", "क्ष"),
  ("tra", "त्र"),
  ("gya", "ज्ञ"),
  ("k", "क"),
  ("kh", "ख"),
  ("g", "ग"),
  ("gh", "घ"),
  ("ch", "च"),
  ("j", "ज"),
  ("jh", "झ"),
  ("t", "त"),
  ("th", "थ"),
  ("d", "द"),
  ("dh", "ध"),
  ("n", "न"),
  ("p", "प"),
  ("ph", "फ"),
  ("b", "ब"),
  ("bh", "भ"),
  ("m", "म"),
  ("y", "य"),
  ("r", "र"),
  ("l", "ल"),
  ("v", "व"),
  ("w", "व"),
  ("sh", "श"),
  ("s", "स"),
  ("h", "ह")]

/-- The whole-word entries of `marathiMap` (sections: common name patterns,
enhanced name mappings, surnames, additional common words), in source order.
The source object literal lists the key "ganesh" twice with the same value, so
first-match lookup agrees with JavaScript's last-binding-wins semantics. -/
def wholeWordEntries : List (String × String) := [
  ("ram", "राम"),
  ("rama", "राम"),
  ("sita", "सीता"),
  ("krishna", "कृष्ण"),
  ("radha", "राधा"),
  ("vishnu", "विष्णू"),
  ("shiva", "शिव"),
  ("ganesh", "गणेश"),
  ("lakshmi", "लक्ष्मी"),
  ("saraswati", "सरस्वती"),
  ("durga", "दुर्गा"),
  ("arjun", "अर्जुन"),
  ("bhim", "भीम"),
  ("nakul", "नकुल"),
  ("sahadev", "सहदेव"),
  ("samrat", "समत्"),
  ("shashikant", "शशिकांत"),
  ("hoshing", "होशींग"),
  ("ketan", "केतन"),
  ("prafulla", "प्रफुल्ल"),
  ("jitendra", "जितेंद्र"),
  ("suresh", "सुरेश"),
  ("mahesh", "महेश"),
  ("rajesh", "राजेश"),
  ("dinesh", "दिनेश"),
  ("mukesh", "मुकेश"),
  ("hitesh", "हितेश"),
  ("ritesh", "रितेश"),
  ("umesh", "उमेश"),
  ("ramesh", "रमेश"),
  ("ganesh", "गणेश"),
  ("naresh", "नरेश"),
  ("yogesh", "योगेश"),
  ("priya", "प्रिया"),
  ("pooja", "पूजा"),
  ("sneha", "स्नेहा"),
  ("kavita", "कविता"),
  ("sunita", "सुनीता"),
  ("anita", "अनिता"),
  ("geeta", "गीता"),
  ("meera", "मीरा"),
  ("sushma", "सुष्मा"),
  ("rekha", "रेखा"),
  ("maya", "माया"),
  ("lata", "लता"),
  ("sharma", "शर्मा"),
  ("verma", "वर्मा"),
  ("gupta", "गुप्ता"),
  ("agarwal", "अग्रवाल"),
  ("patel", "पटेल"),
  ("shah", "शाह"),
  ("joshi", "जोशी"),
  ("mehta", "मेहता"),
  ("kulkarni", "कुलकर्णी"),
  ("deshpande", "देशपांडे"),
  ("patil", "पाटील"),
  ("jadhav", "जाधव"),
  ("pawar", "पवार"),
  ("more", "मोरे"),
  ("shinde", "शिंदे"),
  ("gaikwad", "गायकवाड"),
  ("bhosale", "भोसले"),
  ("salunkhe", "सालुंखे"),
  ("kadam", "कदम"),
  ("mane", "माने"),
  ("sawant", "सावंत"),
  ("raut", "राऊत"),
  ("kale", "काळे"),
  ("mali", "माळी"),
  ("kamble", "कांबळे"),
  ("thorat", "थोरात"),
  ("chavan", "चव्हाण"),
  ("yadav", "यादव"),
  ("mahajan", "महाजन"),
  ("mulay", "मुळे"),
  ("mulye", "मुळे"),
  ("desai", "देसाई"),
  ("jain", "जैन"),
  ("aai", "आई"),
  ("baba", "बाबा"),
  ("mama", "मामा"),
  ("kaka", "काका"),
  ("tai", "ताई"),
  ("dada", "दादा"),
  ("nana", "नाना"),
  ("aji", "आजी"),
  ("ajoba", "आजोबा"),
  ("anna", "अण्णा"),
  ("didi", "दीदी")]

/-- The full `marathiMap` object of the source file: syllable entries first,
then whole-word entries, exactly in source order. -/
def marathiMap : List (String × String) := syllableEntries ++ wholeWordEntries

/-- The character-level fallback mapping `charMap`. -/
def charMap : List (String × String) := [
  ("a", "अ"),
  ("b", "ब"),
  ("c", "च"),
  ("d", "द"),
  ("e", "ए"),
  ("f", "फ"),
  ("g", "ग"),
  ("h", "ह"),
  ("i", "इ"),
  ("j", "ज"),
  ("k", "क"),
  ("l", "ल"),
  ("m", "म"),
  ("n", "न"),
  ("o", "ओ"),
  ("p", "प"),
  ("q", "क"),
  ("r", "र"),
  ("s", "स"),
  ("t", "त"),
  ("u", "उ"),
  ("v", "व"),
  ("w", "व"),
  ("x", "क्स"),
  ("y", "य"),
  ("z", "झ")]

def syllableL : List (List Char × List Char) :=
  syllableEntries.map fun p => (p.1.data, p.2.data)

def wholeWordL : List (List Char × List Char) :=
  wholeWordEntries.map fun p => (p.1.data, p.2.data)

def marathiMapL : List (List Char × List Char) :=
  marathiMap.map fun p => (p.1.data, p.2.data)

def charMapL : List (List Char × List Char) :=
  charMap.map fun p => (p.1.data, p.2.data)

end Improved

/-! Embedding of `src/components/ui/working-marathi-input.tsx`. -/

namespace Working

/-- The entries of the `marathiTranslation` object before its syllable
section: complete names, common first names, and surnames (source lines
14-43), in source order. -/
def wholeWordEntries : List (String × String) := [
  ("samrat", "समत्"),
  ("shashikant", "शशिकांत"),
  ("hoshing", "होशींग"),
  ("ketan", "केतन"),
  ("mulay", "मुळे"),
  ("ram", "राम"),
  ("sita", "सीता"),
  ("krishna", "कृष्ण"),
  ("radha", "राधा"),
  ("vishnu", "विष्णू"),
  ("shiva", "शिव"),
  ("ganesh", "गणेश"),
  ("lakshmi", "लक्ष्मी"),
  ("saraswati", "सरस्वती"),
  ("durga", "दुर्गा"),
  ("arjun", "अर्जुन"),
  ("bhim", "भीम"),
  ("nakul", "नकुल"),
  ("sahadev", "सहदेव"),
  ("prafulla", "प्रफुल्ल"),
  ("jitendra", "जितेंद्र"),
  ("suresh", "सुरेश"),
  ("mahesh", "महेश"),
  ("rajesh", "राजेश"),
  ("dinesh", "दिनेश"),
  ("mukesh", "मुकेश"),
  ("hitesh", "हितेश"),
  ("ritesh", "रितेश"),
  ("umesh", "उमेश"),
  ("ramesh", "रमेश"),
  ("naresh", "नरेश"),
  ("yogesh", "योगेश"),
  ("priya", "प्रिया"),
  ("pooja", "पूजा"),
  ("sneha", "स्नेहा"),
  ("kavita", "कविता"),
  ("sunita", "सुनीता"),
  ("anita", "अनिता"),
  ("geeta", "गीता"),
  ("meera", "मीरा"),
  ("sushma", "सुष्मा"),
  ("rekha", "रेखा"),
  ("maya", "माया"),
  ("lata", "लता"),
  ("sharma", "शर्मा"),
  ("verma", "वर्मा"),
  ("gupta", "गुप्ता"),
  ("patel", "पटेल"),
  ("shah", "शाह"),
  ("joshi", "जोशी"),
  ("mehta", "मेहता"),
  ("kulkarni", "कुलकर्णी"),
  ("deshpande", "देशपांडे"),
  ("patil", "पाटील"),
  ("jadhav", "जाधव"),
  ("pawar", "पवार"),
  ("more", "मोरे"),
  ("shinde", "शिंदे"),
  ("gaikwad", "गायकवाड"),
  ("bhosale", "भोसले"),
  ("salunkhe", "सालुंखे"),
  ("kadam", "कदम"),
  ("mane", "माने"),
  ("sawant", "सावंत"),
  ("raut", "राऊत"),
  ("kale", "काळे"),
  ("mali", "माळी"),
  ("kamble", "कांबळे"),
  ("thorat", "थोरात"),
  ("chavan", "चव्हाण"),
  ("yadav", "यादव"),
  ("mahajan", "महाजन"),
  ("desai", "देसाई"),
  ("jain", "जैन")]

/-- The trailing syllable section of `marathiTranslation`: the basic
consonant+vowel patterns (source lines 45-51), in source order. -/
def syllableEntries : List (String × String) := [
  ("ka", "क"),
  ("kha", "ख"),
  ("ga", "ग"),
  ("gha", "घ"),
  ("cha", "च"),
  ("chha", "छ"),
  ("ja", "ज"),
  ("jha", "झ"),
  ("ta", "ट"),
  ("tha", "ठ"),
  ("da", "ड"),
  ("dha", "ढ"),
  ("na", "ण"),
  ("pa", "प"),
  ("pha", "फ"),
  ("ba", "ब"),
  ("bha", "भ"),
  ("ma", "म"),
  ("ya", "य"),
  ("ra", "र"),
  ("la", "ल"),
  ("va", "व"),
  ("wa", "व"),
  ("sha", "श"),
  ("sa", "स"),
  ("ha", "ह")]

/-- The full `marathiTranslation` object of the source file: whole-word
entries first, then the syllable patterns, exactly in source order. -/
def marathiTranslation : List (String × String) :=
  wholeWordEntries ++ syllableEntries

def wholeWordL : List (List Char × List Char) :=
  wholeWordEntries.map fun p => (p.1.data, p.2.data)

def syllableL : List (List Char × List Char) :=
  syllableEntries.map fun p => (p.1.data, p.2.data)

def marathiTranslationL : List (List Char × List Char) :=
  marathiTranslation.map fun p => (p.1.data, p.2.data)

end Working

/-- Transliterated name triple, the record shape produced by
`convertFullNameToMarathi` and held by the admission form's Marathi name
fields. -/
structure MarathiTriple where
  firstNameMarathi : String
  middleNameMarathi : String
  surnameMarathi : String

namespace Part012

/-- The `switch (char)` statement of `basicTransliterate` (source lines
173-201): a case for each of the 26 letters, with the default branch copying
the character unchanged. -/
def switchChar (c : Char) : String :=
  match c with
  | 'a' => "अ" | 'b' => "ब" | 'c' => "च" | 'd' => "द" | 'e' => "ए" | 'f' => "फ"
  | 'g' => "ग" | 'h' => "ह" | 'i' => "इ" | 'j' => "ज" | 'k' => "क" | 'l' => "ल"
  | 'm' => "म" | 'n' => "न" | 'o' => "ओ" | 'p' => "प" | 'q' => "क" | 'r' => "र"
  | 's' => "स" | 't' => "त" | 'u' => "उ" | 'v' => "व" | 'w' => "व" | 'x' => "क्स"
  | 'y' => "य" | 'z' => "झ"
  | c => String.mk [c]

/-- The character-by-character loop of `basicTransliterate`: while at least
two characters remain, probe `charMapping` with the next two (consuming both
on a hit); otherwise convert the single character by the switch and advance
by one. -/
def btLoop : List Char → List Char
  | [] => []
  | [c] => (switchChar c).data
  | c :: c2 :: rest =>
    match lookupL charMappingL [c, c2] with
    | some v => v ++ btLoop rest
    | none => (switchChar c).data ++ btLoop (c2 :: rest)

/-- Embedding of `basicTransliterate(name)`: lowercase, strip every character
outside `a`-`z`, run the loop, and return the original argument when the loop
produced the empty string (`return result || name`). -/
def basicTransliterate (name : String) : String :=
  if btLoop ((lowerStr name).data.filter isLatinLower) = [] then name
  else String.mk (btLoop ((lowerStr name).data.filter isLatinLower))

/-- Embedding of `convertToMarathi(englishName)` of
`src/lib/name-converter.ts`: guard against empty or whitespace-only input,
normalize, try the exact whole-word lookup, then the substring-containment
loop over `nameMapping` in insertion order, then `basicTransliterate`. -/
def convertToMarathi (englishName : String) : String :=
  if englishName = "" ∨ trimStr englishName = "" then ""
  else
    match lookupL nameMappingL (normStr englishName).data with
    | some v => String.mk v
    | none =>
      match nameMappingL.find?
          (fun p => subOf p.1 (normStr englishName).data ||
            subOf (normStr englishName).data p.1) with
      | some p => String.mk p.2
      | none => basicTransliterate englishName

/-- Embedding of `convertFullNameToMarathi`; the optional middle and last
names are modelled as plain strings, absent meaning `""`, matching the
JavaScript truthiness tests `middleName ?` and `lastName || ''`. -/
def convertFullNameToMarathi (firstName middleName lastName : String) :
    MarathiTriple :=
  { firstNameMarathi := convertToMarathi firstName
    middleNameMarathi :=
      if middleName ≠ "" then convertToMarathi middleName else ""
    surnameMarathi := convertToMarathi lastName }

end Part012

namespace Improved

/-- Single-character fallback of the pattern loop:
`charMap[char] || char`. -/
def fallbackChar (c : Char) : List Char :=
  match lookupL charMapL [c] with
  | some v => v
  | none => [c]

/-- One iteration of the pattern-based while-loop of
`transliterateToMarathi`: probe 4, then 3, then 2 characters against
`marathiMap` (each probe guarded by the remaining length, as in the source),
else fall back to `charMap` or the verbatim character.  Returns the emitted
piece and the remaining input. -/
def step (c : Char) (rest : List Char) : List Char × List Char :=
  match probeN marathiMapL 4 (c :: rest) with
  | some v => (v, (c :: rest).drop 4)
  | none =>
    match probeN marathiMapL 3 (c :: rest) with
    | some v => (v, (c :: rest).drop 3)
    | none =>
      match probeN marathiMapL 2 (c :: rest) with
      | some v => (v, (c :: rest).drop 2)
      | none => (fallbackChar c, rest)

/-- Embedding of `transliterateToMarathi(englishText)` of
`improved-marathi-input.tsx`: guard, normalize, exact lookup in `marathiMap`,
the (redundant) second exact-equality loop over its entries, then the greedy
4-3-2 scan, returning the original text only when the scan result is empty
(`return result || englishText`). -/
def transliterateToMarathi (englishText : String) : String :=
  if englishText = "" ∨ trimStr englishText = "" then ""
  else
    match lookupL marathiMapL (normStr englishText).data with
    | some v => String.mk v
    | none =>
      match marathiMapL.find?
          (fun p => decide (p.1 = (normStr englishText).data)) with
      | some p => String.mk p.2
      | none =>
        if scanL step (normStr englishText).data = [] then englishText
        else String.mk (scanL step (normStr englishText).data)

end Improved

namespace Working

/-- The `switch (char)` statement of `working-marathi-input.tsx` (source
lines 94-120).  Unlike the other two variants it has no case for `q` or `x`;
those letters reach the default branch and are copied unchanged. -/
def switchChar (c : Char) : String :=
  match c with
  | 'a' => "अ" | 'b' => "ब" | 'c' => "च" | 'd' => "द" | 'e' => "ए" | 'f' => "फ"
  | 'g' => "ग" | 'h' => "ह" | 'i' => "इ" | 'j' => "ज" | 'k' => "क" | 'l' => "ल"
  | 'm' => "म" | 'n' => "न" | 'o' => "ओ" | 'p' => "प" | 'r' => "र"
  | 's' => "स" | 't' => "त" | 'u' => "उ" | 'v' => "व" | 'w' => "व"
  | 'y' => "य" | 'z' => "झ"
  | c => String.mk [c]

/-- One iteration of the pattern loop of `working-marathi-input.tsx`: probe 3
then 2 characters against `marathiTranslation`, else the single-character
switch. -/
def step (c : Char) (rest : List Char) : List Char × List Char :=
  match probeN marathiTranslationL 3 (c :: rest) with
  | some v => (v, (c :: rest).drop 3)
  | none =>
    match probeN marathiTranslationL 2 (c :: rest) with
    | some v => (v, (c :: rest).drop 2)
    | none => ((switchChar c).data, rest)

/-- Embedding of `convertToMarathi(english)` of
`working-marathi-input.tsx`. -/
def convertToMarathi (english : String) : String :=
  if english = "" ∨ trimStr english = "" then ""
  else
    match lookupL marathiTranslationL (normStr english).data with
    | some v => String.mk v
    | none =>
      if scanL step (normStr english).data = [] then english
      else String.mk (scanL step (normStr english).data)

end Working

namespace AdmissionForm

/-- Embedding of the name auto-conversion `useEffect` of
`src/components/admission-form.tsx` (lines 155-173): when some Latin name
field is non-empty, derive the Marathi triple and write each derived field
only if the current Marathi field is empty and the derived value is
non-empty; JavaScript truthiness on strings is non-emptiness. -/
def autoConvertNames (firstName middleName surname : String)
    (cur : MarathiTriple) : MarathiTriple :=
  if firstName ≠ "" ∨ middleName ≠ "" ∨ surname ≠ "" then
    let marathiNames :=
      Part012.convertFullNameToMarathi firstName middleName surname
    { firstNameMarathi :=
        if cur.firstNameMarathi = "" ∧ marathiNames.firstNameMarathi ≠ "" then
          marathiNames.firstNameMarathi
        else cur.firstNameMarathi
      middleNameMarathi :=
        if cur.middleNameMarathi = "" ∧ marathiNames.middleNameMarathi ≠ "" then
          marathiNames.middleNameMarathi
        else cur.middleNameMarathi
      surnameMarathi :=
        if cur.surnameMarathi = "" ∧ marathiNames.surnameMarathi ≠ "" then
          marathiNames.surnameMarathi
        else cur.surnameMarathi }
  else cur

end AdmissionForm

/-! Checked facts about the dictionaries: every key is a non-empty string of
lowercase Latin letters, and every value is a non-empty string of characters
that are neither Latin letters (of either case) nor whitespace. -/

def inertChar (c : Char) : Bool :=
  !isLatinLower c && !isLatinUpper c && !isWsChar c

def goodDict (d : List (List Char × List Char)) : Bool :=
  d.all fun p =>
    !p.1.isEmpty && p.1.all isLatinLower && !p.2.isEmpty && p.2.all inertChar

theorem goodDict_spec {d : List (List Char × List Char)}
    (h : goodDict d = true) :
    ∀ p ∈ d, p.1 ≠ [] ∧ (∀ c ∈ p.1, isLatinLower c = true) ∧
      p.2 ≠ [] ∧ ∀ c ∈ p.2, inertChar c = true := by
  intro p hp
  rw [goodDict, List.all_eq_true] at h
  have h2 := h p hp
  simp only [Bool.and_eq_true, Bool.not_eq_true', List.isEmpty_eq_false,
    List.all_eq_true] at h2
  obtain ⟨⟨⟨h1, h2a⟩, h2b⟩, h2c⟩ := h2
  exact ⟨h1, h2a, h2b, h2c⟩

theorem inertChar_spec {c : Char} (h : inertChar c = true) :
    isLatinLower c = false ∧ isLatinUpper c = false ∧ isWsChar c = false := by
  rw [inertChar] at h
  simp only [Bool.and_eq_true, Bool.not_eq_true'] at h
  exact ⟨h.1.1, h.1.2, h.2⟩

theorem nameMappingL_good : goodDict Part012.nameMappingL = true := by decide

theorem charMappingL_good : goodDict Part012.charMappingL = true := by decide

theorem marathiMapL_good : goodDict Improved.marathiMapL = true := by decide

theorem syllableL_good : goodDict Improved.syllableL = true := by decide

theorem charMapL_good : goodDict Improved.charMapL = true := by decide

theorem marathiMapL_eq_append :
    Improved.marathiMapL = Improved.syllableL ++ Improved.wholeWordL := by
  simp [Improved.marathiMapL, Improved.syllableL, Improved.wholeWordL,
    Improved.marathiMap]

/-- The improved input's `charMap` is total on the lowercase letters. -/
theorem charMapL_total :
    lowerLetters.all (fun c => (lookupL Improved.charMapL [c]).isSome) =
      true := by decide

/-- The `switch` of `basicTransliterate` sends every lowercase letter to a
non-empty all-inert (Devanagari) string. -/
theorem switchChar_latin_good :
    lowerLetters.all (fun c =>
      !(Part012.switchChar c).data.isEmpty &&
        (Part012.switchChar c).data.all inertChar) = true := by decide

/-- Agreement of the improved engine's greedy scan with the syllable
dictionary: scanning a syllable key on its own reproduces exactly its
dictionary value. -/
theorem syllable_scan_agree :
    Improved.syllableL.all
      (fun p => decide (scanL Improved.step p.1 = p.2)) = true := by decide

/-- Helper: a filter over elements that all fail the predicate is empty. -/
theorem filter_eq_nil_of_false {l : List Char} {p : Char → Bool}
    (h : ∀ x ∈ l, p x = false) : l.filter p = [] := by
  induction l with
  | nil => rfl
  | cons c t ih =>
    rw [List.filter_cons, h c (List.mem_cons_self c t)]
    simp only [Bool.false_eq_true, if_false]
    exact ih fun x hx => h x (List.mem_cons_of_mem c hx)

namespace Improved

theorem step_rest_le (c : Char) (rest : List Char) :
    ((step c rest).2).length ≤ rest.length := by
  unfold step
  split
  · simp only [List.length_drop, List.length_cons]
    omega
  · split
    · simp only [List.length_drop, List.length_cons]
      omega
    · split
      · simp only [List.length_drop, List.length_cons]
        omega
      · exact Nat.le_refl _

/-- Case analysis for one iteration of the improved pattern loop: either some
probe of length 4, 3 or 2 hits `marathiMap`, or the character falls back to
`charMap`, or it is copied verbatim. -/
theorem step_spec (c : Char) (rest : List Char) :
    (∃ n v, (n = 4 ∨ n = 3 ∨ n = 2) ∧ n ≤ (c :: rest).length ∧
      lookupL marathiMapL ((c :: rest).take n) = some v ∧
      step c rest = (v, (c :: rest).drop n)) ∨
    (∃ v, lookupL charMapL [c] = some v ∧ step c rest = (v, rest)) ∨
    (lookupL charMapL [c] = none ∧ step c rest = ([c], rest)) := by
  unfold step
  split
  · rename_i v hv
    rcases probeN_some hv with ⟨hn, hl⟩
    exact Or.inl ⟨4, v, Or.inl rfl, hn, hl, rfl⟩
  · split
    · rename_i v hv
      rcases probeN_some hv with ⟨hn, hl⟩
      exact Or.inl ⟨3, v, Or.inr (Or.inl rfl), hn, hl, rfl⟩
    · split
      · rename_i v hv
        rcases probeN_some hv with ⟨hn, hl⟩
        exact Or.inl ⟨2, v, Or.inr (Or.inr rfl), hn, hl, rfl⟩
      · unfold fallbackChar
        split
        · rename_i v hv
          exact Or.inr (Or.inl ⟨v, hv, rfl⟩)
        · rename_i hv
          exact Or.inr (Or.inr ⟨hv, rfl⟩)

/-- The greedy scan never produces an empty result from a non-empty input:
every iteration appends a non-empty piece. -/
theorem scan_ne_nil : ∀ l : List Char, l ≠ [] → scanL step l ≠ [] := by
  apply scan_ind step_rest_le (fun l out => l ≠ [] → out ≠ [])
  · intro h
    exact absurd rfl h
  · intro c rest _ _
    rcases step_spec c rest with ⟨n, v, _, _, hl, he⟩ | ⟨v, hl, he⟩ | ⟨_, he⟩
    · have hv : v ≠ [] :=
        (goodDict_spec marathiMapL_good _ (lookupL_mem hl)).2.2.1
      rw [he]
      simp [hv]
    · have hv : v ≠ [] :=
        (goodDict_spec charMapL_good _ (lookupL_mem hl)).2.2.1
      rw [he]
      simp [hv]
    · rw [he]
      simp

/-- Scanning a list that contains no lowercase Latin letter copies it
verbatim: every dictionary probe misses and `charMap` has no entry, so each
character is copied. -/
theorem scan_eq_self_of_no_latin :
    ∀ l : List Char, (∀ c ∈ l, isLatinLower c = false) → scanL step l = l := by
  apply scan_ind step_rest_le
    (fun l out => (∀ c ∈ l, isLatinLower c = false) → out = l)
  · intro _
    rfl
  · intro c rest ih hno
    rcases step_spec c rest with ⟨n, v, _, hn, hl, he⟩ | ⟨v, hl, he⟩ | ⟨_, he⟩
    · exfalso
      have hnone : lookupL marathiMapL ((c :: rest).take n) = none :=
        lookupL_eq_none_of_disjoint
          (fun p hp =>
            ⟨(goodDict_spec marathiMapL_good p hp).1,
             (goodDict_spec marathiMapL_good p hp).2.1⟩)
          (fun x hx => hno x (List.take_subset n _ hx))
      rw [hnone] at hl
      exact Option.noConfusion hl
    · exfalso
      have hnone : lookupL charMapL [c] = none :=
        lookupL_eq_none_of_disjoint
          (fun p hp =>
            ⟨(goodDict_spec charMapL_good p hp).1,
             (goodDict_spec charMapL_good p hp).2.1⟩)
          (fun x hx => by
            have : x = c := by simpa using hx
            subst this
            exact hno x (List.mem_cons_self _ _))
      rw [hnone] at hl
      exact Option.noConfusion hl
    · rw [he] at ih ⊢
      have ih2 := ih fun x hx => hno x (List.mem_cons_of_mem c hx)
      simpa using ih2

/-- Characters of the scan output are never Latin letters: dictionary and
`charMap` values are Devanagari, and a character is copied verbatim only when
`charMap` misses it, which for the total `charMap` means it is not a
lowercase letter (and the normalized input has no uppercase letters). -/
theorem scan_chars :
    ∀ l : List Char, (∀ c ∈ l, isLatinUpper c = false) →
      ∀ x ∈ scanL step l,
        isLatinLower x = false ∧ isLatinUpper x = false := by
  apply scan_ind step_rest_le
    (fun l out => (∀ c ∈ l, isLatinUpper c = false) →
      ∀ x ∈ out, isLatinLower x = false ∧ isLatinUpper x = false)
  · intro _ x hx
    exact absurd hx (List.not_mem_nil x)
  · intro c rest ih hno x hx
    rcases step_spec c rest with ⟨n, v, _, hn, hl, he⟩ | ⟨v, hl, he⟩ | ⟨hl, he⟩
    all_goals rw [he] at ih hx
    · rcases List.mem_append.1 hx with hx | hx
      · have hv := (goodDict_spec marathiMapL_good _ (lookupL_mem hl)).2.2.2
        rcases inertChar_spec (hv x hx) with ⟨h1, h2, _⟩
        exact ⟨h1, h2⟩
      · exact ih
          (fun y hy => hno y (List.mem_of_mem_drop hy)) x hx
    · rcases List.mem_append.1 hx with hx | hx
      · have hv := (goodDict_spec charMapL_good _ (lookupL_mem hl)).2.2.2
        rcases inertChar_spec (hv x hx) with ⟨h1, h2, _⟩
        exact ⟨h1, h2⟩
      · exact ih
          (fun y hy => hno y (List.mem_cons_of_mem c hy)) x hx
    · rcases List.mem_append.1 hx with hx | hx
      · have hxc : x = c := by simpa using hx
        subst hxc
        constructor
        · by_contra hlat
          have hlat2 : isLatinLower x = true := by
            simpa using hlat
          have hmem := mem_lowerLetters_of_isLatinLower hlat2
          have htot := List.all_eq_true.1 charMapL_total x hmem
          rw [hl] at htot
          exact Bool.noConfusion htot
        · exact hno x (List.mem_cons_self _ _)
      · exact ih
          (fun y hy => hno y (List.mem_cons_of_mem c hy)) x hx

/-- The first character of a scan of a non-whitespace-headed list is not
whitespace: it comes from an all-inert dictionary value or is the copied
head itself. -/
theorem scan_head {c : Char} {rest : List Char} (hc : isWsChar c = false)
    {d : Char} (h : (scanL step (c :: rest)).head? = some d) :
    isWsChar d = false := by
  rw [scanL_cons step_rest_le] at h
  rcases step_spec c rest with ⟨n, v, _, hn, hl, he⟩ | ⟨v, hl, he⟩ | ⟨hl, he⟩
  all_goals rw [he] at h
  · have hv := goodDict_spec marathiMapL_good _ (lookupL_mem hl)
    rw [List.head?_append_of_ne_nil _ hv.2.2.1] at h
    rcases hd : v with _ | ⟨a, t⟩
    · rw [hd] at h
      exact Option.noConfusion h
    · rw [hd] at h
      have hda : a = d := by
        simpa using h
      subst hda
      exact (inertChar_spec (hv.2.2.2 a (by rw [hd]; exact List.mem_cons_self _ _))).2.2
  · have hv := goodDict_spec charMapL_good _ (lookupL_mem hl)
    rw [List.head?_append_of_ne_nil _ hv.2.2.1] at h
    rcases hd : v with _ | ⟨a, t⟩
    · rw [hd] at h
      exact Option.noConfusion h
    · rw [hd] at h
      have hda : a = d := by
        simpa using h
      subst hda
      exact (inertChar_spec (hv.2.2.2 a (by rw [hd]; exact List.mem_cons_self _ _))).2.2
  · have hdc : c = d := by
      simpa using h
    subst hdc
    exact hc

/-- The last character of the scan output is either inert or the last
character of the input (copied verbatim). -/
theorem scan_last :
    ∀ l : List Char, ∀ d : Char, (scanL step l).getLast? = some d →
      inertChar d = true ∨ l.getLast? = some d := by
  apply scan_ind step_rest_le
    (fun l out => ∀ d, out.getLast? = some d →
      inertChar d = true ∨ l.getLast? = some d)
  · intro d h
    exact Option.noConfusion h
  · intro c rest ih d h
    rcases hout : scanL step (step c rest).2 with _ | ⟨a, t⟩
    · rw [hout, List.append_nil] at h
      rcases step_spec c rest with ⟨n, v, _, hn, hl, he⟩ | ⟨v, hl, he⟩ | ⟨hl, he⟩
      all_goals rw [he] at h hout
      · left
        have hv := goodDict_spec marathiMapL_good _ (lookupL_mem hl)
        exact hv.2.2.2 d (List.mem_of_mem_getLast? h)
      · left
        have hv := goodDict_spec charMapL_good _ (lookupL_mem hl)
        exact hv.2.2.2 d (List.mem_of_mem_getLast? h)
      · right
        have hrest : rest = [] := by
          by_contra hne
          exact scan_ne_nil rest hne hout
        subst hrest
        have hdc : c = d := by
          simpa using h
        subst hdc
        rfl
    · rw [hout, List.getLast?_append_of_ne_nil _ (by simp)] at h
      rw [← hout] at h
      rcases ih d h with hin | hlast
      · exact Or.inl hin
      · right
        have hr : (step c rest).2 ≠ [] := by
          intro hnil
          rw [hnil] at hout
          exact List.noConfusion hout
        rcases step_spec c rest with ⟨n, v, _, hn, hl, he⟩ | ⟨v, hl, he⟩ | ⟨hl, he⟩
        all_goals rw [he] at hlast hr
        · have hsplit := List.take_append_drop n (c :: rest)
          calc (c :: rest).getLast?
              = ((c :: rest).take n ++ (c :: rest).drop n).getLast? := by
                rw [hsplit]
            _ = ((c :: rest).drop n).getLast? :=
                List.getLast?_append_of_ne_nil _ hr
            _ = some d := hlast
        · calc (c :: rest).getLast?
              = ([c] ++ rest).getLast? := rfl
            _ = rest.getLast? := List.getLast?_append_of_ne_nil _ hr
            _ = some d := hlast
        · calc (c :: rest).getLast?
              = ([c] ++ rest).getLast? := rfl
            _ = rest.getLast? := List.getLast?_append_of_ne_nil _ hr
            _ = some d := hlast

/-- Passthrough: the characters of the input that are not lowercase Latin
letters survive, in order, into the scan output. -/
theorem scan_sublist_non_latin :
    ∀ l : List Char,
      List.Sublist (l.filter fun c => !isLatinLower c) (scanL step l) := by
  apply scan_ind step_rest_le
    (fun l out => List.Sublist (l.filter fun c => !isLatinLower c) out)
  · simp
  · intro c rest ih
    rcases step_spec c rest with ⟨n, v, _, hn, hl, he⟩ | ⟨v, hl, he⟩ | ⟨hl, he⟩
    all_goals rw [he] at ih ⊢
    · have hv := goodDict_spec marathiMapL_good _ (lookupL_mem hl)
      have hfil : ((c :: rest).take n).filter (fun c => !isLatinLower c) = [] :=
        filter_eq_nil_of_false fun x hx => by
          rw [hv.2.1 x hx]
          rfl
      have hsplit := List.take_append_drop n (c :: rest)
      have hfe : (c :: rest).filter (fun c => !isLatinLower c) =
          ((c :: rest).drop n).filter (fun c => !isLatinLower c) := by
        conv_lhs => rw [← hsplit]
        rw [List.filter_append, hfil, List.nil_append]
      rw [hfe]
      exact List.Sublist.trans ih (List.sublist_append_right v _)
    · have hv := goodDict_spec charMapL_good _ (lookupL_mem hl)
      have hc : isLatinLower c = true := hv.2.1 c (by simp)
      rw [List.filter_cons, hc]
      simp only [Bool.not_true, Bool.false_eq_true, if_false]
      exact List.Sublist.trans ih (List.sublist_append_right v _)
    · rw [List.filter_cons]
      by_cases hc : isLatinLower c = true
      · rw [hc]
        simp only [Bool.not_true, Bool.false_eq_true, if_false]
        exact List.Sublist.trans ih (List.sublist_append_right [c] _)
      · have hc2 : isLatinLower c = false := by
          simpa using hc
        rw [hc2]
        simp only [Bool.not_false, if_true, List.singleton_append]
        exact List.Sublist.cons₂ c ih

end Improved

/-! String-level lemmas about normalization. -/

theorem mk_data (s : String) : String.mk s.data = s := rfl

theorem mk_eq_empty_iff {l : List Char} : String.mk l = "" ↔ l = [] := by
  constructor
  · intro h
    have h2 := congrArg String.data h
    simpa using h2
  · intro h
    rw [h]

theorem str_eq_of_data_eq {s t : String} (h : s.data = t.data) : s = t := by
  rw [← mk_data s, ← mk_data t, h]

theorem map_eq_self_of {l : List Char} {f : Char → Char}
    (h : ∀ x ∈ l, f x = x) : l.map f = l := by
  induction l with
  | nil => rfl
  | cons c t ih =>
    rw [List.map_cons, h c (List.mem_cons_self c t),
      ih fun x hx => h x (List.mem_cons_of_mem c hx)]

theorem trimL_subset {l : List Char} : ∀ x ∈ trimL l, x ∈ l := by
  intro x hx
  unfold trimL at hx
  rw [List.mem_reverse] at hx
  have h1 := (List.dropWhile_suffix isWsChar).subset hx
  rw [List.mem_reverse] at h1
  exact (List.dropWhile_suffix isWsChar).subset h1

theorem trimStr_eq_empty_iff {s : String} :
    trimStr s = "" ↔ ∀ c ∈ s.data, isWsChar c = true := by
  unfold trimStr
  rw [mk_eq_empty_iff, trimL_eq_nil_iff]

theorem normStr_data (s : String) :
    (normStr s).data = trimL (s.data.map lowerChar) := rfl

theorem normStr_eq_empty_iff {s : String} :
    normStr s = "" ↔ trimStr s = "" := by
  unfold normStr lowerStr
  rw [trimStr_eq_empty_iff, trimStr_eq_empty_iff]
  constructor
  · intro h c hc
    have h2 := h (lowerChar c) (List.mem_map_of_mem lowerChar hc)
    rwa [isWsChar_lowerChar] at h2
  · intro h c hc
    rcases List.mem_map.1 hc with ⟨d, hd, he⟩
    rw [← he, isWsChar_lowerChar]
    exact h d hd

theorem normStr_chars_not_upper {s : String} :
    ∀ x ∈ (normStr s).data, isLatinUpper x = false := by
  intro x hx
  rw [normStr_data] at hx
  rcases List.mem_map.1 (trimL_subset x hx) with ⟨d, _, he⟩
  rw [← he]
  exact isLatinUpper_lowerChar d

theorem lowerStr_normStr (s : String) : lowerStr (normStr s) = normStr s := by
  unfold lowerStr
  rw [← mk_data (normStr s)]
  congr 1
  apply map_eq_self_of
  intro x hx
  rw [normStr_data] at hx
  rcases List.mem_map.1 (trimL_subset x hx) with ⟨d, _, he⟩
  rw [← he]
  exact lowerChar_idem d

theorem trimL_idem (l : List Char) : trimL (trimL l) = trimL l := by
  apply trimL_eq_self
  · intro c hc
    exact trimL_head? hc
  · intro c hc
    exact trimL_getLast? hc

theorem trimStr_normStr (s : String) : trimStr (normStr s) = normStr s := by
  unfold trimStr
  rw [normStr_data, ← mk_data (normStr s)]
  congr 1
  exact trimL_idem _

theorem normStr_idem (s : String) : normStr (normStr s) = normStr s := by
  conv_lhs => rw [normStr, lowerStr_normStr]
  exact trimStr_normStr s

/-! Helper lemmas about the containment and exact-equality search loops. -/

theorem find_eq_none_of_lookup_none {d : List (List Char × List Char)}
    {key : List Char} (h : lookupL d key = none) :
    d.find? (fun p => decide (p.1 = key)) = none := by
  rw [List.find?_eq_none]
  intro p hp
  simp only [decide_eq_true_eq]
  exact lookupL_eq_none_iff.1 h p hp

theorem contain_find_none {d : List (List Char × List Char)}
    (hd : goodDict d = true) {name : List Char} (hname : name ≠ [])
    (hno : ∀ c ∈ name, isLatinLower c = false) :
    d.find? (fun p => subOf p.1 name || subOf name p.1) = none := by
  rw [List.find?_eq_none]
  intro p hp
  rcases goodDict_spec hd p hp with ⟨hk, hlat, _, _⟩
  simp only [Bool.or_eq_true, not_or]
  constructor
  · intro hsub
    rcases hq : p.1 with _ | ⟨c, t⟩
    · exact hk hq
    · have hc : c ∈ name :=
        subOf_subset hsub c (by rw [hq]; exact List.mem_cons_self _ _)
      have h1 : isLatinLower c = true :=
        hlat c (by rw [hq]; exact List.mem_cons_self _ _)
      have h2 := hno c hc
      rw [h1] at h2
      exact Bool.noConfusion h2
  · intro hsub
    rcases hq : name with _ | ⟨c, t⟩
    · exact hname hq
    · have hc : c ∈ p.1 :=
        subOf_subset hsub c (by rw [hq]; exact List.mem_cons_self _ _)
      have h1 : isLatinLower c = true := hlat c hc
      have h2 := hno c (by rw [hq]; exact List.mem_cons_self _ _)
      rw [h1] at h2
      exact Bool.noConfusion h2

namespace Part012

theorem switchChar_ne_nil (c : Char) : (switchChar c).data ≠ [] := by
  unfold switchChar
  split
  all_goals simp

theorem switchChar_of_not_latin {c : Char} (h : isLatinLower c = false) :
    switchChar c = String.mk [c] := by
  unfold switchChar
  split
  all_goals first
    | rfl
    | (exfalso; revert h; decide)

theorem switchChar_latin_spec {c : Char} (h : isLatinLower c = true) :
    ∀ x ∈ (switchChar c).data, inertChar x = true := by
  have hmem := mem_lowerLetters_of_isLatinLower h
  have hall := List.all_eq_true.1 switchChar_latin_good c hmem
  simp only [Bool.and_eq_true, List.all_eq_true] at hall
  exact hall.2

theorem btLoop_ne_nil : ∀ l : List Char, l ≠ [] → btLoop l ≠ [] := by
  intro l hl
  rcases l with _ | ⟨c, l2⟩
  · exact absurd rfl hl
  rcases l2 with _ | ⟨c2, rest⟩
  · rw [btLoop]
    exact switchChar_ne_nil c
  · rw [btLoop]
    split
    · rename_i v hv
      have hvne : v ≠ [] :=
        (goodDict_spec charMappingL_good _ (lookupL_mem hv)).2.2.1
      simp [hvne]
    · simp [switchChar_ne_nil c]

theorem btLoop_inert :
    ∀ l : List Char, (∀ c ∈ l, isLatinLower c = true) →
      ∀ x ∈ btLoop l, inertChar x = true := by
  have key : ∀ n, ∀ l : List Char, l.length ≤ n →
      (∀ c ∈ l, isLatinLower c = true) →
      ∀ x ∈ btLoop l, inertChar x = true := by
    intro n
    induction n with
    | zero =>
      intro l hlen _ x hx
      have : l = [] := List.length_eq_zero.1 (Nat.le_zero.1 hlen)
      subst this
      simp [btLoop] at hx
    | succ n ih =>
      intro l hlen hlat x hx
      rcases l with _ | ⟨c, l2⟩
      · simp [btLoop] at hx
      rcases l2 with _ | ⟨c2, rest⟩
      · rw [btLoop] at hx
        exact switchChar_latin_spec (hlat c (by simp)) x hx
      · rw [btLoop] at hx
        split at hx
        · rename_i v hv
          rcases List.mem_append.1 hx with hx | hx
          · exact (goodDict_spec charMappingL_good _ (lookupL_mem hv)).2.2.2 x hx
          · apply ih rest _ _ x hx
            · simp only [List.length_cons] at hlen
              omega
            · intro y hy
              exact hlat y (by simp [hy])
        · rcases List.mem_append.1 hx with hx | hx
          · exact switchChar_latin_spec (hlat c (by simp)) x hx
          · apply ih (c2 :: rest) _ _ x hx
            · simp only [List.length_cons] at hlen ⊢
              omega
            · intro y hy
              exact hlat y (List.mem_cons_of_mem c hy)
  exact fun l => key l.length l Nat.le.refl

end Part012

namespace Part012

/-- When the argument contains no Latin letter of either case, the cleaned
name is empty, the loop yields the empty string, and `result || name`
returns the argument verbatim. -/
theorem basic_no_latin {s : String}
    (h : ∀ c ∈ s.data, isLatinLower c = false ∧ isLatinUpper c = false) :
    basicTransliterate s = s := by
  unfold basicTransliterate
  have hclean : (lowerStr s).data.filter isLatinLower = [] := by
    apply filter_eq_nil_of_false
    intro x hx
    rcases List.mem_map.1 hx with ⟨d, hd, he⟩
    rw [← he, isLatinLower_lowerChar, (h d hd).1, (h d hd).2]
    rfl
  rw [hclean]
  simp [btLoop]

/-- Characteristic case split for `basicTransliterate`: either the loop
output is non-empty and all-inert and is returned, or the argument has no
Latin letters and is returned verbatim. -/
theorem basic_spec (s : String) :
    (basicTransliterate s).data ≠ [] ∧
      (∀ x ∈ (basicTransliterate s).data, inertChar x = true) ∨
    basicTransliterate s = s ∧
      ∀ c ∈ s.data, isLatinLower c = false ∧ isLatinUpper c = false := by
  unfold basicTransliterate
  by_cases hres : btLoop ((lowerStr s).data.filter isLatinLower) = []
  · right
    rw [if_pos hres]
    have hclean : (lowerStr s).data.filter isLatinLower = [] := by
      by_contra hne
      exact btLoop_ne_nil _ hne hres
    have hnol : ∀ c ∈ s.data, isLatinLower c = false ∧ isLatinUpper c = false := by
      intro c hc
      have hmem : lowerChar c ∈ (lowerStr s).data :=
        List.mem_map_of_mem lowerChar hc
      have hfa : isLatinLower (lowerChar c) = false := by
        by_contra hx
        have hx2 : isLatinLower (lowerChar c) = true := by simpa using hx
        have : lowerChar c ∈ (lowerStr s).data.filter isLatinLower :=
          List.mem_filter.2 ⟨hmem, hx2⟩
        rw [hclean] at this
        exact List.not_mem_nil _ this
      rw [isLatinLower_lowerChar] at hfa
      simp only [Bool.or_eq_false_iff] at hfa
      exact hfa
    exact ⟨rfl, hnol⟩
  · left
    rw [if_neg hres]
    constructor
    · simpa using hres
    · intro x hx
      apply btLoop_inert ((lowerStr s).data.filter isLatinLower) _ x (by simpa using hx)
      intro c hc
      exact (List.mem_filter.1 hc).2

/-- Verbatim passthrough of `convertToMarathi`: a non-whitespace-only input
without any Latin letter misses the exact lookup, the containment loop, and
the transliteration table, and is returned unchanged. -/
theorem convert_verbatim {s : String} (h1 : trimStr s ≠ "")
    (h2 : ∀ c ∈ s.data, isLatinLower c = false ∧ isLatinUpper c = false) :
    convertToMarathi s = s := by
  unfold convertToMarathi
  have hs : s ≠ "" := by
    intro he
    rw [he] at h1
    exact h1 rfl
  rw [if_neg (by simp [hs, h1])]
  have hname_chars : ∀ c ∈ (normStr s).data, isLatinLower c = false := by
    intro c hc
    rw [normStr_data] at hc
    rcases List.mem_map.1 (trimL_subset c hc) with ⟨d, hd, he⟩
    rw [← he, isLatinLower_lowerChar, (h2 d hd).1, (h2 d hd).2]
    rfl
  have hname_ne : (normStr s).data ≠ [] := by
    intro he
    apply h1
    rw [← normStr_eq_empty_iff]
    rw [← mk_data (normStr s), he]
  have hlook : lookupL nameMappingL (normStr s).data = none :=
    lookupL_eq_none_of_disjoint
      (fun p hp =>
        ⟨(goodDict_spec nameMappingL_good p hp).1,
         (goodDict_spec nameMappingL_good p hp).2.1⟩)
      hname_chars
  split
  · rename_i v hv
    rw [hlook] at hv
    exact Option.noConfusion hv
  · split
    · rename_i p hp
      rw [contain_find_none nameMappingL_good hname_ne hname_chars] at hp
      exact Option.noConfusion hp
    · exact basic_no_latin h2

/-- Characteristic case split for `convertToMarathi`: the output is empty
exactly on whitespace-only input; otherwise it is either a non-empty
all-inert (Devanagari) string, or the verbatim input with no Latin
letters. -/
theorem convert_spec (s : String) :
    trimStr s = "" ∧ convertToMarathi s = "" ∨
    trimStr s ≠ "" ∧ (convertToMarathi s).data ≠ [] ∧
      (∀ x ∈ (convertToMarathi s).data, inertChar x = true) ∨
    trimStr s ≠ "" ∧ convertToMarathi s = s ∧
      ∀ c ∈ s.data, isLatinLower c = false ∧ isLatinUpper c = false := by
  by_cases hg : trimStr s = ""
  · left
    refine ⟨hg, ?_⟩
    unfold convertToMarathi
    rw [if_pos (Or.inr hg)]
  · have hs : s ≠ "" := by
      intro he
      rw [he] at hg
      exact hg rfl
    unfold convertToMarathi
    rw [if_neg (by simp [hs, hg])]
    split
    · rename_i v hl
      right; left
      have hmem := lookupL_mem hl
      refine ⟨hg, ?_, ?_⟩
      · simpa using (goodDict_spec nameMappingL_good _ hmem).2.2.1
      · intro x hx
        exact (goodDict_spec nameMappingL_good _ hmem).2.2.2 x (by simpa using hx)
    · split
      · rename_i p hf
        right; left
        have hmem := List.mem_of_find?_eq_some hf
        refine ⟨hg, ?_, ?_⟩
        · simpa using (goodDict_spec nameMappingL_good p hmem).2.2.1
        · intro x hx
          exact (goodDict_spec nameMappingL_good p hmem).2.2.2 x (by simpa using hx)
      · rcases basic_spec s with ⟨hne, hin⟩ | ⟨hself, hnol⟩
        · right; left
          exact ⟨hg, hne, hin⟩
        · right; right
          exact ⟨hg, hself, hnol⟩

/-- A non-empty all-inert string (such as any Devanagari output of the
engine) is a fixed point of `convertToMarathi`. -/
theorem convert_inert_fix {v : String} (h1 : v.data ≠ [])
    (h2 : ∀ x ∈ v.data, inertChar x = true) : convertToMarathi v = v := by
  apply convert_verbatim
  · intro he
    rcases hv : v.data with _ | ⟨c, t⟩
    · exact h1 hv
    · have hws := (inertChar_spec (h2 c (by rw [hv]; exact List.mem_cons_self _ _))).2.2
      have hall := trimStr_eq_empty_iff.1 he c (by rw [hv]; exact List.mem_cons_self _ _)
      rw [hall] at hws
      exact Bool.noConfusion hws
  · intro c hc
    exact ⟨(inertChar_spec (h2 c hc)).1, (inertChar_spec (h2 c hc)).2.1⟩

end Part012

namespace Improved

/-- Shape of every non-empty output of the improved engine: non-empty, free
of Latin letters of either case, and without leading or trailing
whitespace.  Such strings are fixed points of the engine. -/
def GoodOut (o : String) : Prop :=
  o.data ≠ [] ∧
  (∀ x ∈ o.data, isLatinLower x = false ∧ isLatinUpper x = false) ∧
  (∀ d, o.data.head? = some d → isWsChar d = false) ∧
  (∀ d, o.data.getLast? = some d → isWsChar d = false)

theorem goodOut_of_inert {v : List Char} (hne : v ≠ [])
    (hin : ∀ x ∈ v, inertChar x = true) : GoodOut (String.mk v) := by
  refine ⟨by simpa using hne, ?_, ?_, ?_⟩
  · intro x hx
    rcases inertChar_spec (hin x (by simpa using hx)) with ⟨a, b, _⟩
    exact ⟨a, b⟩
  · intro d hd
    exact (inertChar_spec (hin d (List.mem_of_mem_head? (by simpa using hd)))).2.2
  · intro d hd
    exact (inertChar_spec (hin d (List.mem_of_mem_getLast? (by simpa using hd)))).2.2

/-- Characteristic case split for `transliterateToMarathi`: the output is
empty exactly on whitespace-only input, and otherwise satisfies
`GoodOut`. -/
theorem improved_spec (s : String) :
    trimStr s = "" ∧ transliterateToMarathi s = "" ∨
    trimStr s ≠ "" ∧ GoodOut (transliterateToMarathi s) := by
  by_cases hg : trimStr s = ""
  · left
    refine ⟨hg, ?_⟩
    unfold transliterateToMarathi
    rw [if_pos (Or.inr hg)]
  · right
    have hs : s ≠ "" := by
      intro he
      rw [he] at hg
      exact hg rfl
    have htext_ne : (normStr s).data ≠ [] := by
      intro he
      apply hg
      rw [← normStr_eq_empty_iff]
      rw [← mk_data (normStr s), he]
    refine ⟨hg, ?_⟩
    unfold transliterateToMarathi
    rw [if_neg (by simp [hs, hg])]
    split
    · rename_i v hl
      have hmem := lookupL_mem hl
      exact goodOut_of_inert
        (goodDict_spec marathiMapL_good _ hmem).2.2.1
        (goodDict_spec marathiMapL_good _ hmem).2.2.2
    · split
      · rename_i p hf
        have hmem := List.mem_of_find?_eq_some hf
        exact goodOut_of_inert
          (goodDict_spec marathiMapL_good p hmem).2.2.1
          (goodDict_spec marathiMapL_good p hmem).2.2.2
      · rw [if_neg (scan_ne_nil _ htext_ne)]
        refine ⟨by simpa using scan_ne_nil _ htext_ne, ?_, ?_, ?_⟩
        · intro x hx
          exact scan_chars _ normStr_chars_not_upper x (by simpa using hx)
        · intro d hd
          rcases hq : (normStr s).data with _ | ⟨c, rest⟩
          · exact absurd hq htext_ne
          · have hcws : isWsChar c = false := by
              apply trimL_head? (l := (lowerStr s).data)
              show (normStr s).data.head? = some c
              rw [hq]
              rfl
            rw [hq] at hd
            exact scan_head hcws (by simpa using hd)
        · intro d hd
          rcases scan_last _ d (by simpa using hd) with hin | hlast
          · exact (inertChar_spec hin).2.2
          · apply trimL_getLast? (l := (lowerStr s).data)
            show (normStr s).data.getLast? = some d
            exact hlast

/-- Every `GoodOut` string is a fixed point of the improved engine. -/
theorem goodOut_fix {o : String} (h : GoodOut o) :
    transliterateToMarathi o = o := by
  rcases h with ⟨hne, hchars, hhead, hlast⟩
  have hlower : lowerStr o = o := by
    unfold lowerStr
    rw [← mk_data o]
    congr 1
    apply map_eq_self_of
    intro x hx
    exact lowerChar_of_not_upper (hchars x hx).2
  have htrim : trimStr o = o := by
    unfold trimStr
    rw [← mk_data o]
    congr 1
    exact trimL_eq_self hhead hlast
  have hnorm : normStr o = o := by
    unfold normStr
    rw [hlower, htrim]
  have ho : o ≠ "" := by
    intro he
    apply hne
    rw [he]
  have hlook : lookupL marathiMapL (normStr o).data = none := by
    rw [hnorm]
    exact lookupL_eq_none_of_disjoint
      (fun p hp =>
        ⟨(goodDict_spec marathiMapL_good p hp).1,
         (goodDict_spec marathiMapL_good p hp).2.1⟩)
      (fun c hc => (hchars c hc).1)
  unfold transliterateToMarathi
  rw [if_neg (by simp [ho, htrim, ho])]
  split
  · rename_i v hv
    rw [hlook] at hv
    exact Option.noConfusion hv
  · split
    · rename_i p hp
      rw [find_eq_none_of_lookup_none hlook] at hp
      exact Option.noConfusion hp
    · have hscan2 : scanL step o.data = o.data :=
        scan_eq_self_of_no_latin o.data fun c hc => (hchars c hc).1
      rw [hnorm, hscan2, if_neg hne]

end Improved

/-! Checked facts and lemmas for the working-input engine and the whole-word
sub-dictionaries of the other engines. -/

theorem workingMapL_good : goodDict Working.marathiTranslationL = true := by
  decide

theorem workingWholeWordL_good : goodDict Working.wholeWordL = true := by
  decide

theorem improvedWholeWordL_good : goodDict Improved.wholeWordL = true := by
  decide

theorem workingMapL_eq_append :
    Working.marathiTranslationL = Working.wholeWordL ++ Working.syllableL := by
  simp [Working.marathiTranslationL, Working.wholeWordL, Working.syllableL,
    Working.marathiTranslation]

/-- No key of the improved whole-word section is also a syllable key, so an
exact whole-word hit is what the first-match lookup of the full map finds. -/
theorem improved_word_keys_not_syllable :
    Improved.wholeWordL.all
      (fun p => (lookupL Improved.syllableL p.1).isNone) = true := by decide

/-- No key of `marathiTranslation` contains the letter `q` or `x`. -/
theorem workingKeys_no_qx :
    Working.marathiTranslationL.all
      (fun p => p.1.all fun c => !(c == 'q') && !(c == 'x')) = true := by
  decide

/-- Every lowercase letter is sent by the working switch to a string whose
characters are inert or the letter `q` or `x` itself (the two letters its
default branch copies through). -/
theorem workingSwitch_latin_fact :
    lowerLetters.all (fun c => (Working.switchChar c).data.all
      fun x => inertChar x || (x == 'q') || (x == 'x')) = true := by decide

theorem lowerStr_eq_self_of_no_upper {s : String}
    (h : ∀ c ∈ s.data, isLatinUpper c = false) : lowerStr s = s := by
  unfold lowerStr
  rw [← mk_data s]
  congr 1
  apply map_eq_self_of
  intro x hx
  exact lowerChar_of_not_upper (h x hx)

namespace Working

/-- Characters that can appear in the working engine's scan output: either
no Latin letter of either case, or one of the two letters `q` and `x` that
the switch's default branch copies through. -/
def wOutOk (c : Char) : Bool :=
  (!isLatinLower c && !isLatinUpper c) || (c == 'q') || (c == 'x')

theorem wOut_not_upper {c : Char} (h : wOutOk c = true) :
    isLatinUpper c = false := by
  rw [wOutOk] at h
  simp only [Bool.or_eq_true, Bool.and_eq_true, Bool.not_eq_true',
    beq_iff_eq] at h
  rcases h with (⟨_, h⟩ | h) | h
  · exact h
  · subst h
    decide
  · subst h
    decide

theorem wOut_of_inert {c : Char} (h : inertChar c = true) :
    wOutOk c = true := by
  rcases inertChar_spec h with ⟨h1, h2, _⟩
  rw [wOutOk, h1, h2]
  rfl

theorem wOut_of_no_latin {c : Char} (h1 : isLatinLower c = false)
    (h2 : isLatinUpper c = false) : wOutOk c = true := by
  rw [wOutOk, h1, h2]
  rfl

theorem wSwitchChar_ne_nil (c : Char) : (switchChar c).data ≠ [] := by
  unfold switchChar
  split
  all_goals simp

theorem wSwitchChar_of_not_latin {c : Char} (h : isLatinLower c = false) :
    switchChar c = String.mk [c] := by
  unfold switchChar
  split
  all_goals first
    | rfl
    | (exfalso; revert h; decide)

theorem wSwitchChar_latin_spec {c : Char} (h : isLatinLower c = true) :
    ∀ x ∈ (switchChar c).data,
      (inertChar x || (x == 'q') || (x == 'x')) = true := by
  have hmem := mem_lowerLetters_of_isLatinLower h
  have hall := List.all_eq_true.1 workingSwitch_latin_fact c hmem
  exact List.all_eq_true.1 hall

theorem switchChar_self_of_wOut {c : Char} (h : wOutOk c = true) :
    (switchChar c).data = [c] := by
  rw [wOutOk] at h
  simp only [Bool.or_eq_true, Bool.and_eq_true, Bool.not_eq_true',
    beq_iff_eq] at h
  rcases h with (⟨h1, _⟩ | h) | h
  · rw [wSwitchChar_of_not_latin h1]
  · subst h
    decide
  · subst h
    decide

theorem wStep_rest_le (c : Char) (rest : List Char) :
    ((step c rest).2).length ≤ rest.length := by
  unfold step
  split
  · simp only [List.length_drop, List.length_cons]
    omega
  · split
    · simp only [List.length_drop, List.length_cons]
      omega
    · exact Nat.le_refl _

/-- Case analysis for one iteration of the working pattern loop: either a
probe of length 3 or 2 hits `marathiTranslation`, or the single character
goes through the switch. -/
theorem wStep_spec (c : Char) (rest : List Char) :
    (∃ n v, (n = 3 ∨ n = 2) ∧ n ≤ (c :: rest).length ∧
      lookupL marathiTranslationL ((c :: rest).take n) = some v ∧
      step c rest = (v, (c :: rest).drop n)) ∨
    step c rest = ((switchChar c).data, rest) := by
  unfold step
  split
  · rename_i v hv
    rcases probeN_some hv with ⟨hn, hl⟩
    exact Or.inl ⟨3, v, Or.inl rfl, hn, hl, rfl⟩
  · split
    · rename_i v hv
      rcases probeN_some hv with ⟨hn, hl⟩
      exact Or.inl ⟨2, v, Or.inr rfl, hn, hl, rfl⟩
    · exact Or.inr rfl

theorem wScan_ne_nil : ∀ l : List Char, l ≠ [] → scanL step l ≠ [] := by
  apply scan_ind wStep_rest_le (fun l out => l ≠ [] → out ≠ [])
  · intro h
    exact absurd rfl h
  · intro c rest _ _
    rcases wStep_spec c rest with ⟨n, v, _, _, hl, he⟩ | he
    · have hv : v ≠ [] :=
        (goodDict_spec workingMapL_good _ (lookupL_mem hl)).2.2.1
      rw [he]
      simp [hv]
    · rw [he]
      simp [wSwitchChar_ne_nil c]

/-- Lookup of an all-`wOutOk` key fails: every dictionary key is a non-empty
Latin string containing neither `q` nor `x`. -/
theorem lookupL_eq_none_of_wOut {key : List Char}
    (hk : ∀ c ∈ key, wOutOk c = true) :
    lookupL marathiTranslationL key = none := by
  rw [lookupL_eq_none_iff]
  intro p hp he
  rcases goodDict_spec workingMapL_good p hp with ⟨hne, hlat, _, _⟩
  have hnq := List.all_eq_true.1 workingKeys_no_qx p hp
  rcases hq : p.1 with _ | ⟨c, t⟩
  · exact hne hq
  · have hcmem : c ∈ p.1 := by
      rw [hq]
      exact List.mem_cons_self _ _
    have h1 : isLatinLower c = true := hlat c hcmem
    have h2 : wOutOk c = true := hk c (by rw [← he]; exact hcmem)
    have h3 := List.all_eq_true.1 hnq c hcmem
    rw [wOutOk] at h2
    simp only [Bool.or_eq_true, Bool.and_eq_true, Bool.not_eq_true',
      beq_iff_eq] at h2
    simp only [Bool.and_eq_true, Bool.not_eq_true'] at h3
    rcases h2 with (⟨hl2, _⟩ | hqq) | hxx
    · rw [h1] at hl2
      exact Bool.noConfusion hl2
    · subst hqq
      simp at h3
    · subst hxx
      simp at h3

theorem scan_eq_self_of_wOut :
    ∀ l : List Char, (∀ c ∈ l, wOutOk c = true) → scanL step l = l := by
  apply scan_ind wStep_rest_le
    (fun l out => (∀ c ∈ l, wOutOk c = true) → out = l)
  · intro _
    rfl
  · intro c rest ih hall
    rcases wStep_spec c rest with ⟨n, v, _, hn, hl, he⟩ | he
    · exfalso
      have hnone : lookupL marathiTranslationL ((c :: rest).take n) = none :=
        lookupL_eq_none_of_wOut fun x hx => hall x (List.take_subset n _ hx)
      rw [hnone] at hl
      exact Option.noConfusion hl
    · rw [he] at ih ⊢
      have ih2 := ih fun x hx => hall x (List.mem_cons_of_mem c hx)
      simpa [switchChar_self_of_wOut (hall c (List.mem_cons_self _ _))]
        using ih2

theorem wScan_chars :
    ∀ l : List Char, (∀ c ∈ l, isLatinUpper c = false) →
      ∀ x ∈ scanL step l, wOutOk x = true := by
  apply scan_ind wStep_rest_le
    (fun l out => (∀ c ∈ l, isLatinUpper c = false) →
      ∀ x ∈ out, wOutOk x = true)
  · intro _ x hx
    exact absurd hx (List.not_mem_nil x)
  · intro c rest ih hno x hx
    rcases wStep_spec c rest with ⟨n, v, _, hn, hl, he⟩ | he
    all_goals rw [he] at ih hx
    · rcases List.mem_append.1 hx with hx | hx
      · exact wOut_of_inert
          ((goodDict_spec workingMapL_good _ (lookupL_mem hl)).2.2.2 x hx)
      · exact ih (fun y hy => hno y (List.mem_of_mem_drop hy)) x hx
    · rcases List.mem_append.1 hx with hx | hx
      · by_cases hlat : isLatinLower c = true
        · have hsw := wSwitchChar_latin_spec hlat x hx
          simp only [Bool.or_eq_true, beq_iff_eq] at hsw
          rcases hsw with (hin | hqq) | hxx
          · exact wOut_of_inert hin
          · subst hqq
            decide
          · subst hxx
            decide
        · have hlat2 : isLatinLower c = false := by simpa using hlat
          rw [wSwitchChar_of_not_latin hlat2] at hx
          have hxc : x = c := by simpa using hx
          subst hxc
          exact wOut_of_no_latin hlat2 (hno x (List.mem_cons_self _ _))
      · exact ih (fun y hy => hno y (List.mem_cons_of_mem c hy)) x hx

theorem wScan_head {c : Char} {rest : List Char} (hc : isWsChar c = false)
    {d : Char} (h : (scanL step (c :: rest)).head? = some d) :
    isWsChar d = false := by
  rw [scanL_cons wStep_rest_le] at h
  rcases wStep_spec c rest with ⟨n, v, _, hn, hl, he⟩ | he
  all_goals rw [he] at h
  · have hv := goodDict_spec workingMapL_good _ (lookupL_mem hl)
    rw [List.head?_append_of_ne_nil _ hv.2.2.1] at h
    rcases hd : v with _ | ⟨a, t⟩
    · rw [hd] at h
      exact Option.noConfusion h
    · rw [hd] at h
      have hda : a = d := by simpa using h
      subst hda
      exact (inertChar_spec
        (hv.2.2.2 a (by rw [hd]; exact List.mem_cons_self _ _))).2.2
  · rw [List.head?_append_of_ne_nil _ (wSwitchChar_ne_nil c)] at h
    by_cases hlat : isLatinLower c = true
    · have hd := List.mem_of_mem_head? h
      have hsw := wSwitchChar_latin_spec hlat d hd
      simp only [Bool.or_eq_true, beq_iff_eq] at hsw
      rcases hsw with (hin | hqq) | hxx
      · exact (inertChar_spec hin).2.2
      · subst hqq
        decide
      · subst hxx
        decide
    · have hlat2 : isLatinLower c = false := by simpa using hlat
      rw [wSwitchChar_of_not_latin hlat2] at h
      have hdc : c = d := by simpa using h
      subst hdc
      exact hc

theorem wScan_last :
    ∀ l : List Char, ∀ d : Char, (scanL step l).getLast? = some d →
      isWsChar d = false ∨ l.getLast? = some d := by
  apply scan_ind wStep_rest_le
    (fun l out => ∀ d, out.getLast? = some d →
      isWsChar d = false ∨ l.getLast? = some d)
  · intro d h
    exact Option.noConfusion h
  · intro c rest ih d h
    rcases hout : scanL step (step c rest).2 with _ | ⟨a, t⟩
    · rw [hout, List.append_nil] at h
      rcases wStep_spec c rest with ⟨n, v, _, hn, hl, he⟩ | he
      all_goals rw [he] at h hout
      · left
        have hv := goodDict_spec workingMapL_good _ (lookupL_mem hl)
        exact (inertChar_spec (hv.2.2.2 d (List.mem_of_mem_getLast? h))).2.2
      · have hrest : rest = [] := by
          by_contra hne
          exact wScan_ne_nil rest hne hout
        subst hrest
        by_cases hlat : isLatinLower c = true
        · left
          have hsw := wSwitchChar_latin_spec hlat d (List.mem_of_mem_getLast? h)
          simp only [Bool.or_eq_true, beq_iff_eq] at hsw
          rcases hsw with (hin | hqq) | hxx
          · exact (inertChar_spec hin).2.2
          · subst hqq
            decide
          · subst hxx
            decide
        · right
          have hlat2 : isLatinLower c = false := by simpa using hlat
          rw [wSwitchChar_of_not_latin hlat2] at h
          have hdc : c = d := by simpa using h
          subst hdc
          rfl
    · rw [hout, List.getLast?_append_of_ne_nil _ (by simp)] at h
      rw [← hout] at h
      rcases ih d h with hws | hlast
      · exact Or.inl hws
      · right
        have hr : (step c rest).2 ≠ [] := by
          intro hnil
          rw [hnil] at hout
          exact List.noConfusion hout
        rcases wStep_spec c rest with ⟨n, v, _, hn, hl, he⟩ | he
        all_goals rw [he] at hlast hr
        · have hsplit := List.take_append_drop n (c :: rest)
          calc (c :: rest).getLast?
              = ((c :: rest).take n ++ (c :: rest).drop n).getLast? := by
                rw [hsplit]
            _ = ((c :: rest).drop n).getLast? :=
                List.getLast?_append_of_ne_nil _ hr
            _ = some d := hlast
        · calc (c :: rest).getLast?
              = ([c] ++ rest).getLast? := rfl
            _ = rest.getLast? := List.getLast?_append_of_ne_nil _ hr
            _ = some d := hlast

/-- Shape of every non-empty output of the working engine: non-empty,
containing only `wOutOk` characters (no Latin letters other than the
copied-through `q` and `x`), and without leading or trailing whitespace. -/
def WOut (o : String) : Prop :=
  o.data ≠ [] ∧ (∀ x ∈ o.data, wOutOk x = true) ∧
  (∀ d, o.data.head? = some d → isWsChar d = false) ∧
  (∀ d, o.data.getLast? = some d → isWsChar d = false)

theorem wOut_of_inert_str {v : List Char} (hne : v ≠ [])
    (hin : ∀ x ∈ v, inertChar x = true) : WOut (String.mk v) := by
  refine ⟨by simpa using hne, ?_, ?_, ?_⟩
  · intro x hx
    exact wOut_of_inert (hin x (by simpa using hx))
  · intro d hd
    exact (inertChar_spec
      (hin d (List.mem_of_mem_head? (by simpa using hd)))).2.2
  · intro d hd
    exact (inertChar_spec
      (hin d (List.mem_of_mem_getLast? (by simpa using hd)))).2.2

/-- Characteristic case split for the working `convertToMarathi`: the output
is empty exactly on whitespace-only input, and otherwise satisfies
`WOut`. -/
theorem working_spec (s : String) :
    trimStr s = "" ∧ convertToMarathi s = "" ∨
    trimStr s ≠ "" ∧ WOut (convertToMarathi s) := by
  by_cases hg : trimStr s = ""
  · left
    refine ⟨hg, ?_⟩
    unfold convertToMarathi
    rw [if_pos (Or.inr hg)]
  · right
    have hs : s ≠ "" := by
      intro he
      apply hg
      rw [he]
      rfl
    have htext_ne : (normStr s).data ≠ [] := by
      intro he
      apply hg
      rw [← normStr_eq_empty_iff, ← mk_data (normStr s), he]
    refine ⟨hg, ?_⟩
    unfold convertToMarathi
    rw [if_neg (by simp [hs, hg])]
    split
    · rename_i v hl
      have hmem := lookupL_mem hl
      exact wOut_of_inert_str
        (goodDict_spec workingMapL_good _ hmem).2.2.1
        (goodDict_spec workingMapL_good _ hmem).2.2.2
    · rw [if_neg (wScan_ne_nil _ htext_ne)]
      refine ⟨by simpa using wScan_ne_nil _ htext_ne, ?_, ?_, ?_⟩
      · intro x hx
        exact wScan_chars _ normStr_chars_not_upper x (by simpa using hx)
      · intro d hd
        rcases hq : (normStr s).data with _ | ⟨c, rest⟩
        · exact absurd hq htext_ne
        · have hcws : isWsChar c = false := by
            apply trimL_head? (l := (lowerStr s).data)
            show (normStr s).data.head? = some c
            rw [hq]
            rfl
          rw [hq] at hd
          exact wScan_head hcws (by simpa using hd)
      · intro d hd
        rcases wScan_last _ d (by simpa using hd) with hws | hlast
        · exact hws
        · apply trimL_getLast? (l := (lowerStr s).data)
          show (normStr s).data.getLast? = some d
          exact hlast

/-- Every `WOut` string is a fixed point of the working engine. -/
theorem wOut_fix {o : String} (h : WOut o) : convertToMarathi o = o := by
  rcases h with ⟨hne, hchars, hhead, hlast⟩
  have hnoup : ∀ x ∈ o.data, isLatinUpper x = false :=
    fun x hx => wOut_not_upper (hchars x hx)
  have hlower : lowerStr o = o := lowerStr_eq_self_of_no_upper hnoup
  have htrim : trimStr o = o := by
    unfold trimStr
    rw [← mk_data o]
    congr 1
    exact trimL_eq_self hhead hlast
  have hnorm : normStr o = o := by
    unfold normStr
    rw [hlower, htrim]
  have ho : o ≠ "" := by
    intro he
    apply hne
    rw [he]
  have hlook : lookupL marathiTranslationL (normStr o).data = none := by
    rw [hnorm]
    exact lookupL_eq_none_of_wOut hchars
  unfold convertToMarathi
  rw [if_neg (by simp [ho, htrim])]
  split
  · rename_i v hv
    rw [hlook] at hv
    exact Option.noConfusion hv
  · have hscan : scanL step o.data = o.data :=
      scan_eq_self_of_wOut o.data hchars
    rw [hnorm, hscan, if_neg hne]

/-- Modelled from the spec: the 4-then-3-then-2 probe ladder that claim C2
asserts for every engine, run over the same `marathiTranslation` dictionary
and single-character switch, for comparison with the source's 3-then-2
loop. -/
def specFourThreeTwoStep (c : Char) (rest : List Char) :
    List Char × List Char :=
  match probeN marathiTranslationL 4 (c :: rest) with
  | some v => (v, (c :: rest).drop 4)
  | none =>
    match probeN marathiTranslationL 3 (c :: rest) with
    | some v => (v, (c :: rest).drop 3)
    | none =>
      match probeN marathiTranslationL 2 (c :: rest) with
      | some v => (v, (c :: rest).drop 2)
      | none => ((switchChar c).data, rest)

end Working

/-- On a letterless input with non-empty trim, the improved engine returns
the trimmed input: the dictionaries and `charMap` yield no match at all and
every character is copied through the scan. -/
theorem improved_verbatim {s : String} (h1 : trimStr s ≠ "")
    (h2 : ∀ c ∈ s.data, isLatinLower c = false ∧ isLatinUpper c = false) :
    Improved.transliterateToMarathi s = trimStr s := by
  have hs : s ≠ "" := by
    intro he
    apply h1
    rw [he]
    rfl
  have hlower : lowerStr s = s :=
    lowerStr_eq_self_of_no_upper fun c hc => (h2 c hc).2
  have hnorm : normStr s = trimStr s := by
    unfold normStr
    rw [hlower]
  have hchars : ∀ c ∈ (normStr s).data, isLatinLower c = false := by
    intro c hc
    rw [normStr_data] at hc
    rcases List.mem_map.1 (trimL_subset c hc) with ⟨d, hd, he⟩
    rw [← he, isLatinLower_lowerChar, (h2 d hd).1, (h2 d hd).2]
    rfl
  have htext_ne : (normStr s).data ≠ [] := by
    intro he
    apply h1
    rw [← normStr_eq_empty_iff, ← mk_data (normStr s), he]
  have hlook : lookupL Improved.marathiMapL (normStr s).data = none :=
    lookupL_eq_none_of_disjoint
      (fun p hp =>
        ⟨(goodDict_spec marathiMapL_good p hp).1,
         (goodDict_spec marathiMapL_good p hp).2.1⟩)
      hchars
  unfold Improved.transliterateToMarathi
  rw [if_neg (by simp [hs, h1])]
  split
  · rename_i v hv
    rw [hlook] at hv
    exact Option.noConfusion hv
  · split
    · rename_i p hp
      rw [find_eq_none_of_lookup_none hlook] at hp
      exact Option.noConfusion hp
    · have hscan : scanL Improved.step (normStr s).data = (normStr s).data :=
        Improved.scan_eq_self_of_no_latin _ hchars
      rw [hscan, if_neg htext_ne, hnorm]

/-- On a letterless input with non-empty trim, the working engine likewise
returns the trimmed input. -/
theorem working_verbatim {s : String} (h1 : trimStr s ≠ "")
    (h2 : ∀ c ∈ s.data, isLatinLower c = false ∧ isLatinUpper c = false) :
    Working.convertToMarathi s = trimStr s := by
  have hs : s ≠ "" := by
    intro he
    apply h1
    rw [he]
    rfl
  have hlower : lowerStr s = s :=
    lowerStr_eq_self_of_no_upper fun c hc => (h2 c hc).2
  have hnorm : normStr s = trimStr s := by
    unfold normStr
    rw [hlower]
  have hchars : ∀ c ∈ (normStr s).data, isLatinLower c = false := by
    intro c hc
    rw [normStr_data] at hc
    rcases List.mem_map.1 (trimL_subset c hc) with ⟨d, hd, he⟩
    rw [← he, isLatinLower_lowerChar, (h2 d hd).1, (h2 d hd).2]
    rfl
  have hwout : ∀ c ∈ (normStr s).data, Working.wOutOk c = true := by
    intro c hc
    apply Working.wOut_of_no_latin (hchars c hc)
    exact normStr_chars_not_upper c hc
  have htext_ne : (normStr s).data ≠ [] := by
    intro he
    apply h1
    rw [← normStr_eq_empty_iff, ← mk_data (normStr s), he]
  have hlook : lookupL Working.marathiTranslationL (normStr s).data = none :=
    Working.lookupL_eq_none_of_wOut hwout
  unfold Working.convertToMarathi
  rw [if_neg (by simp [hs, h1])]
  split
  · rename_i v hv
    rw [hlook] at hv
    exact Option.noConfusion hv
  · have hscan : scanL Working.step (normStr s).data = (normStr s).data :=
      Working.scan_eq_self_of_wOut _ hwout
    rw [hscan, if_neg htext_ne, hnorm]

/-! Claim theorems. -/

/-- C1: Exact whole-word precedence, for all three cited engines.  For every
input string whose normalization (trimmed, lowercased) equals a key of the
respective whole-word dictionary (`nameMapping` of `name-converter.ts`; the
whole-word section of the improved `marathiMap`; the whole-word section of
the working `marathiTranslation`) with value `v`, the engine returns `v`,
regardless of any syllable matches its greedy scanner could also make inside
the input. -/
theorem C1_exact_word_precedence (s : String) :
    (∀ v, lookupL Part012.nameMappingL (normStr s).data = some v →
      Part012.convertToMarathi s = String.mk v) ∧
    (∀ v, lookupL Improved.wholeWordL (normStr s).data = some v →
      Improved.transliterateToMarathi s = String.mk v) ∧
    (∀ v, lookupL Working.wholeWordL (normStr s).data = some v →
      Working.convertToMarathi s = String.mk v) := by
  refine ⟨?_, ?_, ?_⟩
  · intro v h
    have hne : (normStr s).data ≠ [] := by
      intro he
      rw [he] at h
      exact (goodDict_spec nameMappingL_good _ (lookupL_mem h)).1 rfl
    have hg : trimStr s ≠ "" := by
      intro he
      apply hne
      have h2 : normStr s = "" := normStr_eq_empty_iff.2 he
      rw [h2]
    have hs : s ≠ "" := by
      intro he
      apply hg
      rw [he]
      rfl
    unfold Part012.convertToMarathi
    rw [if_neg (by simp [hs, hg])]
    split
    · rename_i v2 hv
      rw [h] at hv
      injection hv with hv
      rw [hv]
    · rename_i hv
      rw [h] at hv
      exact Option.noConfusion hv
  · intro v h
    have hne : (normStr s).data ≠ [] := by
      intro he
      rw [he] at h
      exact (goodDict_spec improvedWholeWordL_good _ (lookupL_mem h)).1 rfl
    have hg : trimStr s ≠ "" := by
      intro he
      apply hne
      have h2 : normStr s = "" := normStr_eq_empty_iff.2 he
      rw [h2]
    have hs : s ≠ "" := by
      intro he
      apply hg
      rw [he]
      rfl
    have hsyl : lookupL Improved.syllableL (normStr s).data = none := by
      have hfact := List.all_eq_true.1 improved_word_keys_not_syllable _
        (lookupL_mem h)
      simpa [Option.isNone_iff_eq_none] using hfact
    have hfull : lookupL Improved.marathiMapL (normStr s).data = some v := by
      rw [marathiMapL_eq_append, lookupL_append_none hsyl]
      exact h
    unfold Improved.transliterateToMarathi
    rw [if_neg (by simp [hs, hg])]
    split
    · rename_i v2 hv
      rw [hfull] at hv
      injection hv with hv
      rw [hv]
    · rename_i hv
      rw [hfull] at hv
      exact Option.noConfusion hv
  · intro v h
    have hne : (normStr s).data ≠ [] := by
      intro he
      rw [he] at h
      exact (goodDict_spec workingWholeWordL_good _ (lookupL_mem h)).1 rfl
    have hg : trimStr s ≠ "" := by
      intro he
      apply hne
      have h2 : normStr s = "" := normStr_eq_empty_iff.2 he
      rw [h2]
    have hs : s ≠ "" := by
      intro he
      apply hg
      rw [he]
      rfl
    have hfull : lookupL Working.marathiTranslationL (normStr s).data =
        some v := by
      rw [workingMapL_eq_append]
      exact lookupL_append_some h
    unfold Working.convertToMarathi
    rw [if_neg (by simp [hs, hg])]
    split
    · rename_i v2 hv
      rw [hfull] at hv
      injection hv with hv
      rw [hv]
    · rename_i hv
      rw [hfull] at hv
      exact Option.noConfusion hv

/-- Witness for C1 on all three engines, including the spec's own examples
`"  RAM  "` and `"Suresh"` (case-insensitive exact matches). -/
theorem C1_witness :
    Part012.convertToMarathi "  RAM  " = "राम" ∧
    Improved.transliterateToMarathi "Suresh" = "सुरेश" ∧
    Working.convertToMarathi "KETAN" = "केतन" :=
  ⟨(C1_exact_word_precedence "  RAM  ").1 "राम".data (by decide),
   (C1_exact_word_precedence "Suresh").2.1 "सुरेश".data (by decide),
   (C1_exact_word_precedence "KETAN").2.2 "केतन".data (by decide)⟩

/-- C2 counterexample: the claimed 4-then-3-then-2 probe ladder is false for
the cited working engine, which probes only 3 then 2.  On `"manex"` (no
dictionary key at all) the engine emits `मनएx` via `ma`-`n`-`e`-`x`, while
the claimed 4-probe pass over the same dictionary would consume the
4-character key `mane` and emit `मानेx`. -/
theorem C2_counterexample :
    lookupL Working.marathiTranslationL (normStr "manex").data = none ∧
    Working.convertToMarathi "manex" = "मनएx" ∧
    String.mk (scanL Working.specFourThreeTwoStep (normStr "manex").data) =
      "मानेx" ∧
    Working.convertToMarathi "manex" ≠
      String.mk (scanL Working.specFourThreeTwoStep (normStr "manex").data) := by
  refine ⟨by decide, by decide, by decide, by decide⟩

/-- C2 (amended): each cited engine produces its output by a single
left-to-right greedy pass with that engine's own probe ladder — 4, then 3,
then 2 characters for the improved engine (on every input whose
normalization is not a whole-word key); 3 then 2 characters for the working
engine (on every input whose normalization matches no dictionary key); and
only 2 characters inside `basicTransliterate` of `name-converter.ts`
(reached when neither the exact lookup nor the containment loop matches,
operating on the lowercased input stripped of non-letters).  In each pass
the first matching length wins, the cursor advances by the matched length,
and only when no probe matches does the single-character fallback fire. -/
theorem C2_greedy_scan :
    (∀ s : String, lookupL Improved.wholeWordL (normStr s).data = none →
      Improved.transliterateToMarathi s =
        String.mk (scanL Improved.step (normStr s).data)) ∧
    (∀ s : String,
      lookupL Working.marathiTranslationL (normStr s).data = none →
      Working.convertToMarathi s =
        String.mk (scanL Working.step (normStr s).data)) ∧
    (∀ s : String, trimStr s ≠ "" →
      lookupL Part012.nameMappingL (normStr s).data = none →
      Part012.nameMappingL.find?
          (fun p => subOf p.1 (normStr s).data ||
            subOf (normStr s).data p.1) = none →
      Part012.convertToMarathi s =
        (if Part012.btLoop ((lowerStr s).data.filter isLatinLower) = []
         then s
         else String.mk
           (Part012.btLoop ((lowerStr s).data.filter isLatinLower)))) := by
  refine ⟨?_, ?_, ?_⟩
  · intro s h
    by_cases hg : trimStr s = ""
    · have hn : normStr s = "" := normStr_eq_empty_iff.2 hg
      unfold Improved.transliterateToMarathi
      rw [if_pos (Or.inr hg), hn]
      rfl
    · have hs : s ≠ "" := by
        intro he
        apply hg
        rw [he]
        rfl
      have htext_ne : (normStr s).data ≠ [] := by
        intro he
        apply hg
        rw [← normStr_eq_empty_iff, ← mk_data (normStr s), he]
      unfold Improved.transliterateToMarathi
      rw [if_neg (by simp [hs, hg])]
      split
      · rename_i v hv
        rw [marathiMapL_eq_append] at hv
        rcases hsy : lookupL Improved.syllableL (normStr s).data with _ | v2
        · rw [lookupL_append_none hsy, h] at hv
          exact Option.noConfusion hv
        · rw [lookupL_append_some hsy] at hv
          injection hv with hv
          subst hv
          have hag := List.all_eq_true.1 syllable_scan_agree _
            (lookupL_mem hsy)
          simp only [decide_eq_true_eq] at hag
          rw [hag]
      · rename_i hv
        split
        · rename_i p hp
          rw [find_eq_none_of_lookup_none hv] at hp
          exact Option.noConfusion hp
        · rw [if_neg (Improved.scan_ne_nil _ htext_ne)]
  · intro s h
    by_cases hg : trimStr s = ""
    · have hn : normStr s = "" := normStr_eq_empty_iff.2 hg
      unfold Working.convertToMarathi
      rw [if_pos (Or.inr hg), hn]
      rfl
    · have hs : s ≠ "" := by
        intro he
        apply hg
        rw [he]
        rfl
      have htext_ne : (normStr s).data ≠ [] := by
        intro he
        apply hg
        rw [← normStr_eq_empty_iff, ← mk_data (normStr s), he]
      unfold Working.convertToMarathi
      rw [if_neg (by simp [hs, hg])]
      split
      · rename_i v hv
        rw [h] at hv
        exact Option.noConfusion hv
      · rw [if_neg (Working.wScan_ne_nil _ htext_ne)]
  · intro s h1 h2 h3
    have hs : s ≠ "" := by
      intro he
      apply h1
      rw [he]
      rfl
    unfold Part012.convertToMarathi
    rw [if_neg (by simp [hs, h1])]
    split
    · rename_i v hv
      rw [h2] at hv
      exact Option.noConfusion hv
    · split
      · rename_i p hp
        rw [h3] at hp
        exact Option.noConfusion hp
      · rfl

/-- Witness for C2 on all three engines: `"kx"` through the improved and
working passes, and `"xyz123"` through the 2-probe loop of
`basicTransliterate`. -/
theorem C2_witness :
    Improved.transliterateToMarathi "kx" =
      String.mk (scanL Improved.step (normStr "kx").data) ∧
    Working.convertToMarathi "kx" =
      String.mk (scanL Working.step (normStr "kx").data) ∧
    Part012.convertToMarathi "xyz123" =
      (if Part012.btLoop ((lowerStr "xyz123").data.filter isLatinLower) = []
       then "xyz123"
       else String.mk
         (Part012.btLoop ((lowerStr "xyz123").data.filter isLatinLower))) :=
  ⟨C2_greedy_scan.1 "kx" (by decide),
   C2_greedy_scan.2.1 "kx" (by decide),
   C2_greedy_scan.2.2 "xyz123" (by decide) (by decide) (by decide)⟩

/-- C3: Non-destructive merge.  The admission form's auto-conversion leaves
every currently non-empty Marathi field unchanged, and writes a field only
when that field is currently empty. -/
theorem C3_non_destructive_merge (fn mn sn : String) (cur : MarathiTriple) :
    ((cur.firstNameMarathi ≠ "" →
        (AdmissionForm.autoConvertNames fn mn sn cur).firstNameMarathi =
          cur.firstNameMarathi) ∧
     (cur.middleNameMarathi ≠ "" →
        (AdmissionForm.autoConvertNames fn mn sn cur).middleNameMarathi =
          cur.middleNameMarathi) ∧
     (cur.surnameMarathi ≠ "" →
        (AdmissionForm.autoConvertNames fn mn sn cur).surnameMarathi =
          cur.surnameMarathi)) ∧
    (((AdmissionForm.autoConvertNames fn mn sn cur).firstNameMarathi ≠
        cur.firstNameMarathi → cur.firstNameMarathi = "") ∧
     ((AdmissionForm.autoConvertNames fn mn sn cur).middleNameMarathi ≠
        cur.middleNameMarathi → cur.middleNameMarathi = "") ∧
     ((AdmissionForm.autoConvertNames fn mn sn cur).surnameMarathi ≠
        cur.surnameMarathi → cur.surnameMarathi = "")) := by
  unfold AdmissionForm.autoConvertNames
  split
  · dsimp only
    constructor
    · refine ⟨?_, ?_, ?_⟩
      all_goals intro h
      all_goals rw [if_neg (fun hc => h hc.1)]
    · refine ⟨?_, ?_, ?_⟩
      · intro h
        by_cases he : cur.firstNameMarathi = ""
        · exact he
        · rw [if_neg (fun hc => he hc.1)] at h
          exact absurd rfl h
      · intro h
        by_cases he : cur.middleNameMarathi = ""
        · exact he
        · rw [if_neg (fun hc => he hc.1)] at h
          exact absurd rfl h
      · intro h
        by_cases he : cur.surnameMarathi = ""
        · exact he
        · rw [if_neg (fun hc => he hc.1)] at h
          exact absurd rfl h
  · exact ⟨⟨fun _ => rfl, fun _ => rfl, fun _ => rfl⟩,
      ⟨fun h => absurd rfl h, fun h => absurd rfl h, fun h => absurd rfl h⟩⟩

/-- Witness for C3 at the spec's scenario 5: the pre-filled surname field is
left untouched by the auto-conversion. -/
theorem C3_witness :
    (⟨"", "", "previously-set"⟩ : MarathiTriple).surnameMarathi ≠ "" ∧
    (AdmissionForm.autoConvertNames "priya" "" "sharma"
        (⟨"", "", "previously-set"⟩ : MarathiTriple)).surnameMarathi =
      "previously-set" :=
  ⟨by decide,
   (C3_non_destructive_merge "priya" "" "sharma"
     (⟨"", "", "previously-set"⟩ : MarathiTriple)).1.2.2 (by decide)⟩

/-- C4 counterexample: the claim fails on the `name-converter.ts` engine,
which is among its cited sources.  `basicTransliterate` strips every
character outside `a`-`z` before scanning, so the digits of `"xyz123"` are
dropped from the output rather than copied through raw. -/
theorem C4_counterexample :
    ('1' ∈ "xyz123".data) ∧
    Part012.convertToMarathi "xyz123" = "क्सयझ" ∧
    ¬ ('1' ∈ (Part012.convertToMarathi "xyz123").data) := by
  refine ⟨by decide, by decide, by decide⟩

/-- C4 (amended): Passthrough of non-letters holds for the improved input
component: for every input, the characters of the normalized input that are
outside `a`-`z` (digits, punctuation, non-Latin script) survive in order
into the engine's output (they form a sublist of the output); in
`name-converter.ts` they are instead removed before scanning. -/
theorem C4_amended_passthrough (s : String) :
    List.Sublist ((normStr s).data.filter fun c => !isLatinLower c)
      (Improved.transliterateToMarathi s).data := by
  by_cases hg : trimStr s = ""
  · have hn : normStr s = "" := normStr_eq_empty_iff.2 hg
    rw [hn]
    simp
  · have hs : s ≠ "" := by
      intro he
      apply hg
      rw [he]
      rfl
    unfold Improved.transliterateToMarathi
    rw [if_neg (by simp [hs, hg])]
    split
    · rename_i v hv
      have hkey := (goodDict_spec marathiMapL_good _ (lookupL_mem hv)).2.1
      have hfil : (normStr s).data.filter (fun c => !isLatinLower c) = [] :=
        filter_eq_nil_of_false fun x hx => by
          rw [hkey x hx]
          rfl
      rw [hfil]
      simp
    · split
      · rename_i p hp
        have hkey : ∀ c ∈ (normStr s).data, isLatinLower c = true := by
          have hpd := List.find?_some hp
          simp only [decide_eq_true_eq] at hpd
          rw [← hpd]
          exact (goodDict_spec marathiMapL_good _
            (List.mem_of_find?_eq_some hp)).2.1
        have hfil : (normStr s).data.filter (fun c => !isLatinLower c) = [] :=
          filter_eq_nil_of_false fun x hx => by
            rw [hkey x hx]
            rfl
        rw [hfil]
        simp
      · split
        · rename_i hres
          have hn : (normStr s).data = [] := by
            by_contra hne
            exact Improved.scan_ne_nil _ hne hres
          rw [hn]
          simp
        · exact Improved.scan_sublist_non_latin (normStr s).data

/-- Witness for C4 (amended) at a mixed input: the digits and the hyphen of
`"go-2025"` survive into the improved engine's output. -/
theorem C4_amended_witness :
    List.Sublist ((normStr "go-2025").data.filter fun c => !isLatinLower c)
      (Improved.transliterateToMarathi "go-2025").data :=
  C4_amended_passthrough "go-2025"

/-- C5: the claim is right about the intended design (the spec's Character
Fallback Table is total on the 26 letters, and both `name-converter.ts` and
`improved-marathi-input.tsx` implement all 26 cases), but the switch of
`working-marathi-input.tsx` omits the cases for `q` and `x`: those letters
hit the default branch and are copied through as Latin letters, so that
engine returns `"q"` and `"x"` unchanged. -/
theorem C5_working_fallback_gap :
    Working.convertToMarathi "q" = "q" ∧
    Working.convertToMarathi "x" = "x" ∧
    Working.switchChar 'q' = "q" ∧
    Working.switchChar 'x' = "x" ∧
    lowerLetters.all (fun c => (lookupL Improved.charMapL [c]).isSome) = true ∧
    lowerLetters.all
      (fun c => (Part012.switchChar c).data.all inertChar) = true := by
  refine ⟨by decide, by decide, by decide, by decide, by decide, by decide⟩

/-- C6 counterexample: `" "` is a non-empty input for which all three cited
engines return the empty string, contradicting the clause that the engine
never returns the empty string for a non-empty input; and on the non-empty
unmatchable input `" ?"` the improved and working engines return the trimmed
`"?"` rather than the input verbatim. -/
theorem C6_counterexample :
    (" " : String) ≠ "" ∧
    Part012.convertToMarathi " " = "" ∧
    Improved.transliterateToMarathi " " = "" ∧
    Working.convertToMarathi " " = "" ∧
    (" ?" : String) ≠ "" ∧
    Improved.transliterateToMarathi " ?" = "?" ∧
    Working.convertToMarathi " ?" = "?" ∧
    ("?" : String) ≠ (" ?" : String) := by
  refine ⟨by decide, by decide, by decide, by decide, by decide, by decide,
    by decide, by decide⟩

/-- C6 (amended): Non-erasure for all three cited engines.  Each engine maps
`""` and every whitespace-only input to `""`; for every input with non-empty
trim containing no Latin letter of either case (so the dictionaries and
fallback tables yield no match at all), `name-converter.ts` returns the
input verbatim while the improved and working engines return its trimmed
form; and no engine returns `""` for an input whose trim is non-empty. -/
theorem C6_amended_non_erasure :
    (Part012.convertToMarathi "" = "" ∧
     Improved.transliterateToMarathi "" = "" ∧
     Working.convertToMarathi "" = "") ∧
    (∀ s : String, trimStr s = "" →
      Part012.convertToMarathi s = "" ∧
      Improved.transliterateToMarathi s = "" ∧
      Working.convertToMarathi s = "") ∧
    (∀ s : String, trimStr s ≠ "" →
      (∀ c ∈ s.data, isLatinLower c = false ∧ isLatinUpper c = false) →
      Part012.convertToMarathi s = s ∧
      Improved.transliterateToMarathi s = trimStr s ∧
      Working.convertToMarathi s = trimStr s) ∧
    (∀ s : String, trimStr s ≠ "" →
      Part012.convertToMarathi s ≠ "" ∧
      Improved.transliterateToMarathi s ≠ "" ∧
      Working.convertToMarathi s ≠ "") := by
  refine ⟨⟨rfl, rfl, rfl⟩, ?_, ?_, ?_⟩
  · intro s h
    refine ⟨?_, ?_, ?_⟩
    · unfold Part012.convertToMarathi
      rw [if_pos (Or.inr h)]
    · unfold Improved.transliterateToMarathi
      rw [if_pos (Or.inr h)]
    · unfold Working.convertToMarathi
      rw [if_pos (Or.inr h)]
  · intro s h1 h2
    exact ⟨Part012.convert_verbatim h1 h2, improved_verbatim h1 h2,
      working_verbatim h1 h2⟩
  · intro s h
    refine ⟨?_, ?_, ?_⟩
    · rcases Part012.convert_spec s with ⟨hg, _⟩ | ⟨_, hne, _⟩ | ⟨_, hself, _⟩
      · exact absurd hg h
      · intro he
        apply hne
        rw [he]
      · intro he
        rw [hself] at he
        apply h
        rw [he]
        rfl
    · rcases Improved.improved_spec s with ⟨hg, _⟩ | ⟨_, hgood⟩
      · exact absurd hg h
      · intro he
        apply hgood.1
        rw [he]
    · rcases Working.working_spec s with ⟨hg, _⟩ | ⟨_, hw⟩
      · exact absurd hg h
      · intro he
        apply hw.1
        rw [he]

/-- Witness for C6 (amended): the letterless input `" ?"` passes through
verbatim in `name-converter.ts` and trimmed in the other two engines, and
the ordinary name `"raj"` produces a non-empty result in all three. -/
theorem C6_witness :
    trimStr " ?" ≠ "" ∧
    Part012.convertToMarathi " ?" = " ?" ∧
    Improved.transliterateToMarathi " ?" = trimStr " ?" ∧
    Working.convertToMarathi " ?" = trimStr " ?" ∧
    trimStr "raj" ≠ "" ∧
    Part012.convertToMarathi "raj" ≠ "" ∧
    Improved.transliterateToMarathi "raj" ≠ "" ∧
    Working.convertToMarathi "raj" ≠ "" := by
  have h3 := C6_amended_non_erasure.2.2.1 " ?" (by decide) (by decide)
  have h4 := C6_amended_non_erasure.2.2.2 "raj" (by decide)
  exact ⟨by decide, h3.1, h3.2.1, h3.2.2, by decide, h4.1, h4.2.1, h4.2.2⟩

/-- C7: Totality.  Both engines are total Lean functions (they are defined
without any partiality), and for every input string (empty, pure digits,
mixed script) they return a string, which is empty exactly when the input
trims to the empty string. -/
theorem C7_totality (s : String) :
    (Part012.convertToMarathi s = "" ↔ trimStr s = "") ∧
    (Improved.transliterateToMarathi s = "" ↔ trimStr s = "") := by
  constructor
  · constructor
    · intro h
      rcases Part012.convert_spec s with ⟨hg, _⟩ | ⟨_, hne, _⟩ | ⟨hg, hself, _⟩
      · exact hg
      · exfalso
        apply hne
        rw [h]
      · rw [hself] at h
        rw [h]
        rfl
    · intro h
      unfold Part012.convertToMarathi
      rw [if_pos (Or.inr h)]
  · constructor
    · intro h
      rcases Improved.improved_spec s with ⟨hg, _⟩ | ⟨_, hgood⟩
      · exact hg
      · exfalso
        apply hgood.1
        rw [h]
    · intro h
      unfold Improved.transliterateToMarathi
      rw [if_pos (Or.inr h)]

/-- Witness for C7 at a pure-digit input. -/
theorem C7_witness :
    (Part012.convertToMarathi "123" = "" ↔ trimStr "123" = "") ∧
    (Improved.transliterateToMarathi "123" = "" ↔ trimStr "123" = "") :=
  C7_totality "123"

/-- C8: Fixed point after one application, for all three cited engines.
Applying an engine to its own output changes nothing: the output is empty,
or consists of Devanagari plus passed-through non-Latin characters — and,
for the working engine, possibly the letters `q` and `x` copied by its
default branch, which no dictionary key (none contains `q` or `x`) and no
switch case can match again. -/
theorem C8_fixed_point (s : String) :
    Part012.convertToMarathi (Part012.convertToMarathi s) =
      Part012.convertToMarathi s ∧
    Improved.transliterateToMarathi (Improved.transliterateToMarathi s) =
      Improved.transliterateToMarathi s ∧
    Working.convertToMarathi (Working.convertToMarathi s) =
      Working.convertToMarathi s := by
  refine ⟨?_, ?_, ?_⟩
  · rcases Part012.convert_spec s with ⟨_, h⟩ | ⟨_, hne, hin⟩ | ⟨_, hself, hnol⟩
    · rw [h]
      rfl
    · exact Part012.convert_inert_fix hne hin
    · rw [hself]
      exact hself
  · rcases Improved.improved_spec s with ⟨_, h⟩ | ⟨_, hgood⟩
    · rw [h]
      rfl
    · exact Improved.goodOut_fix hgood
  · rcases Working.working_spec s with ⟨_, h⟩ | ⟨_, hw⟩
    · rw [h]
      rfl
    · exact Working.wOut_fix hw

/-- Witness for C8 at an ordinary name input, on all three engines. -/
theorem C8_witness :
    Part012.convertToMarathi (Part012.convertToMarathi "ram") =
      Part012.convertToMarathi "ram" ∧
    Improved.transliterateToMarathi (Improved.transliterateToMarathi "ram") =
      Improved.transliterateToMarathi "ram" ∧
    Working.convertToMarathi (Working.convertToMarathi "ram") =
      Working.convertToMarathi "ram" :=
  C8_fixed_point "ram"

/-- C9 counterexample: the claim fails on `name-converter.ts` (its first
cited source).  On the letterless input `" ?"` the verbatim-return branch
passes the unnormalized argument through, so the result keeps the leading
space while the result for the normalized form `"?"` does not. -/
theorem C9_counterexample :
    normStr " ?" = "?" ∧
    Part012.convertToMarathi " ?" = " ?" ∧
    Part012.convertToMarathi "?" = "?" ∧
    Part012.convertToMarathi " ?" ≠
      Part012.convertToMarathi (normStr " ?") := by
  refine ⟨by decide, by decide, by decide, by decide⟩

/-- C9 (amended): Normalization invariance holds for the improved input
component: its result on any input equals its result on the trimmed,
lowercased form, and empty or whitespace-only input yields the empty
string; in `name-converter.ts` the verbatim-return branch breaks the
equation for unmatchable inputs with surrounding whitespace or capitals. -/
theorem C9_amended_normalization (s : String) :
    Improved.transliterateToMarathi s =
      Improved.transliterateToMarathi (normStr s) := by
  by_cases hg : trimStr s = ""
  · have hn : normStr s = "" := normStr_eq_empty_iff.2 hg
    rw [hn]
    unfold Improved.transliterateToMarathi
    rw [if_pos (Or.inr hg), if_pos (Or.inl rfl)]
  · have hs : s ≠ "" := by
      intro he
      apply hg
      rw [he]
      rfl
    have hn : normStr s ≠ "" := fun he => hg (normStr_eq_empty_iff.1 he)
    have htn : trimStr (normStr s) = normStr s := trimStr_normStr s
    have htext_ne : (normStr s).data ≠ [] := by
      intro he
      apply hn
      rw [← mk_data (normStr s), he]
    have hg1 : ¬(s = "" ∨ trimStr s = "") := by simp [hs, hg]
    have hg2 : ¬(normStr s = "" ∨ trimStr (normStr s) = "") := by
      simp [hn, htn]
    unfold Improved.transliterateToMarathi
    rw [if_neg hg1, if_neg hg2, normStr_idem]
    split
    · rfl
    · split
      · rfl
      · rw [if_neg (Improved.scan_ne_nil _ htext_ne),
          if_neg (Improved.scan_ne_nil _ htext_ne)]

/-- Witness for C9 (amended): case and surrounding whitespace do not affect
the improved engine. -/
theorem C9_amended_witness :
    Improved.transliterateToMarathi "  Suresh  " =
      Improved.transliterateToMarathi (normStr "  Suresh  ") :=
  C9_amended_normalization "  Suresh  "

/-- C10: Implicit substring-containment rule of the `name-converter.ts`
engine.  For every input with non-empty normalization that is not itself a
whole-word key, if the containment loop (in dictionary insertion order)
first matches entry `p` — a key contained in the normalized input or
containing it — then `convertToMarathi` returns that entry's whole value for
the entire input and the per-syllable scan is never reached. -/
theorem C10_containment_rule (s : String) (p : List Char × List Char)
    (h1 : trimStr s ≠ "")
    (h2 : lookupL Part012.nameMappingL (normStr s).data = none)
    (h3 : Part012.nameMappingL.find?
        (fun q => subOf q.1 (normStr s).data ||
          subOf (normStr s).data q.1) = some p) :
    Part012.convertToMarathi s = String.mk p.2 := by
  have hs : s ≠ "" := by
    intro he
    apply h1
    rw [he]
    rfl
  unfold Part012.convertToMarathi
  rw [if_neg (by simp [hs, h1])]
  split
  · rename_i v hv
    rw [h2] at hv
    exact Option.noConfusion hv
  · split
    · rename_i q hq
      rw [h3] at hq
      injection hq with hq
      rw [hq]
    · rename_i hq
      rw [h3] at hq
      exact Option.noConfusion hq

/-- Witness for C10: the prefix `"ra"` of `"ram"` is not a key, the first
containment match in insertion order is the entry for `"ram"`, and the
engine returns the full mapping of `"ram"`. -/
theorem C10_witness :
    trimStr "ra" ≠ "" ∧
    lookupL Part012.nameMappingL (normStr "ra").data = none ∧
    Part012.nameMappingL.find?
        (fun q => subOf q.1 (normStr "ra").data ||
          subOf (normStr "ra").data q.1) = some ("ram".data, "राम".data) ∧
    Part012.convertToMarathi "ra" = "राम" :=
  ⟨by decide, by decide, by decide,
   C10_containment_rule "ra" ("ram".data, "राम".data)
     (by decide) (by decide) (by decide)⟩

end HospitalNames
